import Mathlib

/-!
Verification development for the cyclotron repository.

Shallow embedding conventions:
* Rust `Duration` values are totally ordered and are modelled as `Nat`
  (total nanoseconds); `Duration::default()` is `0`.
* `SpanId(u64)` is modelled as `Nat` (claims do not depend on wrap-around).
* `serde_json::Value` metadata is modelled as its rendered `String`.
* `HashMap` is modelled as an association list with first-match lookup and
  replace-in-place insertion; `HashSet` as a list with insert-if-absent.
  `BTreeSet`/`BTreeMap` are modelled as sorted lists where iteration order
  matters, plain association lists where it does not.
* Fallible code returns `Option`/`Except`; an `assert!`/`expect`/`panic`
  in the source is modelled as a distinguished failure outcome.
* Side-effecting diagnostics (`eprintln!`) are modelled as an explicit list
  of emitted messages.
-/

namespace F2

/-- f2/src/event.rs `AsyncOutcome`. -/
inductive AsyncOutcome where
  | Success : AsyncOutcome
  | Cancelled : AsyncOutcome
  | Error : String → AsyncOutcome
deriving DecidableEq

/-- f2/src/event.rs `TraceEvent` (the f2 variant has no `is_restart` fields). -/
inductive TraceEvent where
  | AsyncStart (name : String) (id : Nat) (parent_id : Nat) (ts : Nat) (metadata : String)
  | AsyncOnCPU (id : Nat) (ts : Nat)
  | AsyncOffCPU (id : Nat) (ts : Nat)
  | AsyncEnd (id : Nat) (ts : Nat) (outcome : AsyncOutcome)
  | SyncStart (name : String) (id : Nat) (parent_id : Nat) (ts : Nat) (metadata : String)
  | SyncEnd (id : Nat) (ts : Nat)
  | ThreadStart (name : String) (id : Nat) (ts : Nat)
  | ThreadEnd (id : Nat) (ts : Nat)
  | Wakeup (waking_span : Nat) (parked_span : Nat) (ts : Nat)
deriving DecidableEq

/-- f2/src/event.rs `TraceEvent::ts`. -/
def TraceEvent.ts : TraceEvent → Nat
  | .AsyncStart _ _ _ ts _ => ts
  | .AsyncOnCPU _ ts => ts
  | .AsyncOffCPU _ ts => ts
  | .AsyncEnd _ ts _ => ts
  | .SyncStart _ _ _ ts _ => ts
  | .SyncEnd _ ts => ts
  | .ThreadStart _ _ ts => ts
  | .ThreadEnd _ ts => ts
  | .Wakeup _ _ ts => ts

/-- f2/src/event.rs `TraceEvent::id`. -/
def TraceEvent.id : TraceEvent → Option Nat
  | .AsyncStart _ id _ _ _ => some id
  | .AsyncOnCPU id _ => some id
  | .AsyncOffCPU id _ => some id
  | .AsyncEnd id _ _ => some id
  | .SyncStart _ id _ _ _ => some id
  | .SyncEnd id _ => some id
  | .ThreadStart _ id _ => some id
  | .ThreadEnd id _ => some id
  | .Wakeup _ _ _ => none

/-- f2/src/event.rs `TraceEvent::parent_id`. -/
def TraceEvent.parent_id : TraceEvent → Option Nat
  | .AsyncStart _ _ parent_id _ _ => some parent_id
  | .SyncStart _ _ parent_id _ _ => some parent_id
  | _ => none

/-- f2/src/spans.rs `Wakeup` (edge attached to the waking span). -/
structure WakeupEdge where
  target : Nat
  ts : Nat
deriving DecidableEq

/-- f2/src/spans.rs `SpanStyle`. -/
inductive SpanStyle where
  | ThreadInProgress | ThreadFinished
  | SyncInProgress | SyncFinished
  | AsyncInProgress | AsyncSuccess | AsyncCancel | AsyncError
deriving DecidableEq

/-- f2/src/spans.rs `Span`. The Rust field `end` is called `end_` here
(`end` is a Lean keyword); `message: Vec<u8>` is modelled as `String`. -/
structure Span where
  id : Nat
  parent_id : Option Nat
  start : Nat
  end_ : Nat
  message : String
  wakeups : List WakeupEdge
  style : SpanStyle
deriving DecidableEq

/-- f2/src/spans.rs `ActiveSpan`. -/
structure ActiveSpan where
  event : TraceEvent
  message : String
  wakeups : List WakeupEdge
deriving DecidableEq

/-- f2/src/spans.rs `ActiveSpan::in_progress`.  The source unwraps
`self.event.id()` and panics on a non-Start event; both are unreachable
because `State::add_event` only stores Start events in the table, and are
modelled by the `getD`/wildcard defaults below. -/
def ActiveSpan.in_progress (a : ActiveSpan) (ts : Nat) : Span :=
  { id := a.event.id.getD 0
    parent_id := a.event.parent_id
    start := a.event.ts
    end_ := ts
    style := match a.event with
      | .AsyncStart _ _ _ _ _ => SpanStyle.AsyncInProgress
      | .SyncStart _ _ _ _ _ => SpanStyle.SyncInProgress
      | .ThreadStart _ _ _ => SpanStyle.ThreadInProgress
      | _ => SpanStyle.ThreadInProgress
    message := a.message
    wakeups := a.wakeups }

/-- Association-list update modelling `HashMap::insert`: replaces the first
binding of the key in place, otherwise appends a fresh binding. -/
def alUpdate {β : Type} (k : Nat) (v : β) : List (Nat × β) → List (Nat × β)
  | [] => [(k, v)]
  | (k1, v1) :: rest => if k = k1 then (k, v) :: rest else (k1, v1) :: alUpdate k v rest

/-- Association-list removal modelling `HashMap::remove` (first binding). -/
def alErase {β : Type} (k : Nat) : List (Nat × β) → List (Nat × β)
  | [] => []
  | (k1, v1) :: rest => if k = k1 then rest else (k1, v1) :: alErase k rest

/-- Association-list lookup modelling `HashMap::get` (first binding). -/
def alGet {β : Type} (k : Nat) : List (Nat × β) → Option β
  | [] => none
  | (k1, v1) :: rest => if k = k1 then some v1 else alGet k rest

/-- f2/src/spans.rs `State`.  `active_spans: HashMap<SpanId, ActiveSpan>` is
modelled as an association list with distinct keys. -/
structure State where
  active_spans : List (Nat × ActiveSpan)
  finished_spans : List Span
  end_time : Nat
deriving DecidableEq

/-- f2/src/spans.rs `State::new`. -/
def State.new : State := { active_spans := [], finished_spans := [], end_time := 0 }

/-- f2/src/spans.rs `State::bump_time`. -/
def State.bump_time (st : State) (ts : Nat) : State :=
  if ts > st.end_time then { st with end_time := ts } else st

/-- The message captured for a Start event in `State::add_event`
(the inner `match` building `ActiveSpan::message`); the source renders
`format!("{} {}", name, metadata)` for Async/Sync starts and clones the
name for thread starts.  The wildcard arm is the source's `unreachable!`. -/
def startMessage : TraceEvent → String
  | .AsyncStart name _ _ _ metadata => name ++ " " ++ metadata
  | .SyncStart name _ _ _ metadata => name ++ " " ++ metadata
  | .ThreadStart name _ _ => name
  | _ => ""

/-- f2/src/spans.rs `State::add_event`.  Returns the new state together with
the list of diagnostics the source writes with `eprintln!`. -/
def State.add_event (st : State) (event : TraceEvent) : State × List String :=
  let st := st.bump_time event.ts
  match event with
  | .AsyncStart _ id _ _ _ | .SyncStart _ id _ _ _ | .ThreadStart _ id _ =>
    ({ st with active_spans :=
        (alUpdate id { wakeups := [], message := startMessage event, event := event }
          st.active_spans) }, [])
  | .AsyncOnCPU _ _ | .AsyncOffCPU _ _ => (st, [])
  | .AsyncEnd id ts _ | .SyncEnd id ts | .ThreadEnd id ts =>
    match alGet id st.active_spans with
    | some start =>
      -- the span is removed from the table before the style is examined
      let st := { st with active_spans := alErase id st.active_spans }
      let styleResult : Option SpanStyle :=
        match start.event with
        | .AsyncStart _ _ _ _ _ =>
          match event with
          | .AsyncEnd _ _ AsyncOutcome.Success => some SpanStyle.AsyncSuccess
          | .AsyncEnd _ _ AsyncOutcome.Cancelled => some SpanStyle.AsyncCancel
          | .AsyncEnd _ _ (AsyncOutcome.Error _) => some SpanStyle.AsyncError
          | _ => none   -- source: eprintln then early return
        | .SyncStart _ _ _ _ _ => some SpanStyle.SyncFinished
        | .ThreadStart _ _ _ => some SpanStyle.ThreadFinished
        | _ => none     -- source: eprintln then early return
      match styleResult with
      | some style =>
        ({ st with finished_spans := st.finished_spans ++
            [{ id := id
               parent_id := start.event.parent_id
               start := start.event.ts
               end_ := ts
               style := style
               message := start.message
               wakeups := start.wakeups }] }, [])
      | none => (st, ["wrong kind of start event"])
    | none => (st, ["unknown span id: " ++ toString id])
  | .Wakeup waking_span parked_span ts =>
    match alGet waking_span st.active_spans with
    | some sp =>
      ({ st with active_spans :=
          (alUpdate waking_span
            { sp with wakeups := sp.wakeups ++ [{ target := parked_span, ts := ts }] }
            st.active_spans) }, [])
    | none => (st, ["unknown waking span id: " ++ toString waking_span])

/-- f2/src/spans.rs `State::len`. -/
def State.len (st : State) : Nat := st.active_spans.length + st.finished_spans.length

/-- f2/src/spans.rs `State::select`.  `Span::borrow` is the identity in this
model (it only changes the Rust lifetime). -/
def State.select (st : State) (start end_ : Nat) : List Span :=
  ((st.active_spans.map (·.2)).filter (fun e => e.event.ts < end_)).map
      (fun e => e.in_progress end_)
    ++ (st.finished_spans.filter (fun s => s.start < end_ && s.end_ > start))

/-- f2/src/main.rs `read_into`.  The byte stream already split and decoded by
`serde_json::StreamDeserializer` is modelled as a list of decode results;
the source writes `out.add_event(item?)`, so the first decode error is
returned immediately and the remaining items are never visited.  The
returned pair is the state as mutated so far plus the error, if any. -/
def read_into (st : State) : List (Except String TraceEvent) → State × Option String
  | [] => (st, none)
  | Except.error e :: _ => (st, some e)
  | Except.ok ev :: rest => read_into (st.add_event ev).1 rest

/-! ## f2/src/layout.rs

`Sweep` holds a `BTreeSet<u16>` of free rows and a `BTreeSet<(Duration, u16)>`
of (end, row) pairs for occupied rows.  Both are modelled as strictly sorted
lists (ascending, lexicographic for the pairs), so that taking the minimum is
taking the head, exactly as `iter().next()` does on a `BTreeSet`. -/

/-- `BTreeSet<u16>::insert` on a strictly sorted list. -/
def insSetNat (a : Nat) : List Nat → List Nat
  | [] => [a]
  | b :: l => if a < b then a :: b :: l else if a = b then b :: l else b :: insSetNat a l

/-- Lexicographic order on (end-timestamp, row) pairs, as derived for Rust
tuples of `(Duration, u16)`. -/
def pairLtB (x y : Nat × Nat) : Bool := x.1 < y.1 || (x.1 = y.1 && x.2 < y.2)

/-- `BTreeSet<(Duration, u16)>::insert` on a strictly sorted list. -/
def insSetPair (a : Nat × Nat) : List (Nat × Nat) → List (Nat × Nat)
  | [] => [a]
  | b :: l => if pairLtB a b then a :: b :: l else if a = b then b :: l else b :: insSetPair a l

/-- f2/src/layout.rs `Sweep`. -/
structure Sweep where
  next_free : Nat
  free : List Nat
  ends : List (Nat × Nat)
deriving DecidableEq

/-- f2/src/layout.rs `Sweep::new`. -/
def Sweep.new : Sweep := { next_free := 0, free := [], ends := [] }

/-- The `while let` loop at the top of `Sweep::alloc`: repeatedly look at the
smallest `(end, row)` entry; stop once `end >= start` (`ts >= sp.start`),
otherwise move the row to the free set.  Returns the remaining occupied
entries and the grown free set. -/
def releaseLoop : List (Nat × Nat) → List Nat → Nat → List (Nat × Nat) × List Nat
  | [], free, _ => ([], free)
  | (ts, row) :: rest, free, start =>
    if start ≤ ts then ((ts, row) :: rest, free)
    else releaseLoop rest (insSetNat row free) start

/-- f2/src/layout.rs `Sweep::alloc`: release closed rows, then take the
smallest free row if any, else allocate `next_free` and increment it;
finally record `(sp.end, row)` as occupied. -/
def Sweep.alloc (s : Sweep) (sp : Span) : Nat × Sweep :=
  match releaseLoop s.ends s.free sp.start with
  | (ends1, row :: restFree) =>
    (row, { next_free := s.next_free, free := restFree, ends := insSetPair (sp.end_, row) ends1 })
  | (ends1, []) =>
    (s.next_free,
     { next_free := s.next_free + 1, free := [],
       ends := insSetPair (sp.end_, s.next_free) ends1 })

/-- Sort key used by `lay_out`: `spans.sort_unstable_by_key(|s| s.span.start)`.
The Rust sort is unstable; this model fixes the stable order, which is one
admissible outcome. -/
def spanLe (a b : Span) : Prop := a.start ≤ b.start

instance : DecidableRel spanLe := fun a b => inferInstanceAs (Decidable (a.start ≤ b.start))

instance : IsTotal Span spanLe := ⟨fun a b => Nat.le_total a.start b.start⟩

instance : IsTrans Span spanLe := ⟨fun _ _ _ h1 h2 => Nat.le_trans h1 h2⟩

/-- An ancestor-row path (`SmallVec<[u16; 8]>` in the source). -/
abbrev Path := List Nat

/-- Association-list lookup keyed by paths (for the `sweeps: BTreeMap<Path, Sweep>`;
key order is irrelevant because the map is only read pointwise). -/
def plGet {β : Type} (k : Path) : List (Path × β) → Option β
  | [] => none
  | (k1, v1) :: rest => if k = k1 then some v1 else plGet k rest

/-- Association-list update keyed by paths. -/
def plUpdate {β : Type} (k : Path) (v : β) : List (Path × β) → List (Path × β)
  | [] => [(k, v)]
  | (k1, v1) :: rest => if k = k1 then (k, v) :: rest else (k1, v1) :: plUpdate k v rest

/-- State of the first loop of `lay_out`: `allocations: BTreeMap<SpanId, Path>`
and `sweeps: BTreeMap<Path, Sweep>`, both as association lists (iteration
order of `allocations.values()` only feeds a set of paths, so key order is
irrelevant to the result). -/
structure LayState where
  alloc : List (Nat × Path)
  sweeps : List (Path × Sweep)

/-- One iteration of the first loop of `lay_out`: compute the parent path
(empty for roots and for unknown parents, where the source also logs an
error), fetch or create the sweep for that path, allocate a row, and record
`parent_path + [row]` for this span id. -/
def layStep (σ : LayState) (sp : Span) : LayState :=
  let parent_path : Path :=
    match sp.parent_id with
    | some parent => (alGet parent σ.alloc).getD []
    | none => []
  let sweep := (plGet parent_path σ.sweeps).getD Sweep.new
  let rs := sweep.alloc sp
  { alloc := alUpdate sp.id (parent_path ++ [rs.1]) σ.alloc,
    sweeps := plUpdate parent_path rs.2 σ.sweeps }

/-- The first loop of `lay_out` over the start-sorted spans. -/
def layLoop (spans : List Span) : LayState := spans.foldl layStep { alloc := [], sweeps := [] }

/-- Strict lexicographic order on paths, as Rust derives `Ord` for
`SmallVec<[u16; 8]>` (element-wise, a strict prefix is smaller). -/
def pathLtB : Path → Path → Bool
  | [], [] => false
  | [], _ :: _ => true
  | _ :: _, [] => false
  | a :: as_, b :: bs => if a < b then true else if b < a then false else pathLtB as_ bs

/-- Insertion into a strictly `pathLtB`-sorted duplicate-free list of paths;
models inserting a key into the `rows: BTreeMap<Path, u16>`. -/
def insSetPath (p : Path) : List Path → List Path
  | [] => [p]
  | q :: l => if p = q then q :: l else if pathLtB p q then p :: q :: l else q :: insSetPath p l

/-- The key set of `rows: BTreeMap<Path, u16>` built from `allocations.values()`,
in `BTreeMap` iteration order (ascending lexicographic).  Renumbering then
assigns each path its index in this list. -/
def distinctSortedPaths (paths : List Path) : List Path := paths.foldl (fun acc p => insSetPath p acc) []

/-- Position of a path in the renumbering list (the value stored for it in
`rows: BTreeMap<Path, u16>` after the `enumerate` pass). -/
def idxOf (p : Path) : List Path → Nat
  | [] => 0
  | q :: l => if p = q then 0 else idxOf p l + 1

/-- f2/src/layout.rs `LaidSpan` (the `u16` row as `Nat`). -/
structure LaidSpan where
  span : Span
  row : Nat
deriving DecidableEq

/-- f2/src/layout.rs `Layout`. -/
structure Layout where
  spans : List LaidSpan
  total_rows : Nat
deriving DecidableEq

/-- f2/src/layout.rs `lay_out`.  The final `rows[&allocations[&sp.span.id]]`
indexing cannot fail in the source (every processed id is in `allocations`
and every allocated path is a key of `rows`); the `getD []` default is
unreachable and only makes the lookup total. -/
def layOut (spans : List Span) : Layout :=
  let sorted := List.insertionSort spanLe spans
  let σ := layLoop sorted
  let rowsL := distinctSortedPaths (σ.alloc.map (·.2))
  { spans := sorted.map (fun sp => { span := sp, row := idxOf ((alGet sp.id σ.alloc).getD []) rowsL }),
    total_rows := rowsL.length }

/-- Ghost trace entry for the verification of `lay_out`: the span processed,
the parent path used for its sweep, and the raw sweep row it received. -/
structure TEntry where
  span : Span
  ppath : Path
  row : Nat
deriving DecidableEq

/-- Ghost variant of `layStep` that also records a trace entry. -/
def layStepT (σt : LayState × List TEntry) (sp : Span) : LayState × List TEntry :=
  let parent_path : Path :=
    match sp.parent_id with
    | some parent => (alGet parent σt.1.alloc).getD []
    | none => []
  let sweep := (plGet parent_path σt.1.sweeps).getD Sweep.new
  let rs := sweep.alloc sp
  ({ alloc := alUpdate sp.id (parent_path ++ [rs.1]) σt.1.alloc,
     sweeps := plUpdate parent_path rs.2 σt.1.sweeps },
   σt.2 ++ [{ span := sp, ppath := parent_path, row := rs.1 }])

/-- Ghost run of the first loop of `lay_out`, accumulating the trace. -/
def layRunT (σt : LayState × List TEntry) (spans : List Span) : LayState × List TEntry :=
  spans.foldl layStepT σt

/-- Duplicate removal keeping first appearances, used to phrase claims about
the set and first-appearance order of observed paths. -/
def firstDedup (l : List Path) : List Path :=
  l.foldl (fun acc p => if p ∈ acc then acc else acc ++ [p]) []

end F2

namespace Server

/-- server/src/event.rs `AsyncOutcome`. -/
inductive AsyncOutcome where
  | Success : AsyncOutcome
  | Cancelled : AsyncOutcome
  | Error : String → AsyncOutcome
deriving DecidableEq

/-- server/src/event.rs `TraceEvent` (this variant carries `is_restart` on
`AsyncStart`/`ThreadStart`). -/
inductive TraceEvent where
  | AsyncStart (name : String) (id : Nat) (parent_id : Nat) (ts : Nat) (metadata : String)
      (is_restart : Bool)
  | AsyncOnCPU (id : Nat) (ts : Nat)
  | AsyncOffCPU (id : Nat) (ts : Nat)
  | AsyncEnd (id : Nat) (ts : Nat) (outcome : AsyncOutcome)
  | SyncStart (name : String) (id : Nat) (parent_id : Nat) (ts : Nat) (metadata : String)
  | SyncEnd (id : Nat) (ts : Nat)
  | ThreadStart (name : String) (id : Nat) (ts : Nat) (is_restart : Bool)
  | ThreadEnd (id : Nat) (ts : Nat)
  | Wakeup (waking_span : Nat) (parked_span : Nat) (ts : Nat)
deriving DecidableEq

/-- server/src/event.rs `EventResult`: the raw payload text plus its
timestamp, extracted for sorting. -/
structure EventResult where
  buf : String
  ts : Nat
deriving DecidableEq

/-- server/src/event.rs `EventNode`. -/
structure EventNode where
  events : List EventResult
  name : String
  parent : Option Nat
  children : List Nat
deriving DecidableEq

/-- server/src/event.rs `Wakeup` (the record stored in `EventTree::wakeups`). -/
structure WakeupRec where
  event : EventResult
  waking_span : Nat
  parked_span : Nat
deriving DecidableEq

/-- server/src/event.rs `EventTree`.  `HashMap`/`HashSet` are modelled as
lists in insertion order (their iteration order is unspecified in Rust; the
claims proved below do not depend on it). -/
structure EventTree where
  slab : List (Nat × EventNode)
  roots : List Nat
  wakeups : List WakeupRec
  goal_names : List String
  goal_spans : List Nat
  hide_wakeups_from_names : List String
  hide_wakeups_from_spans : List Nat
deriving DecidableEq

/-- `HashSet<SpanId>::insert`: append if absent. -/
def setInsertNat (a : Nat) (l : List Nat) : List Nat := if a ∈ l then l else l ++ [a]

/-- `HashSet<Wakeup>::insert`.  The source's manual `PartialEq` on
`EventResult` compares only `ts`, but `Hash` is derived over all fields, so
two inserts can only be deduplicated when `buf`, `ts`, `waking_span` and
`parked_span` all coincide; therefore structural equality models it. -/
def wkInsert (w : WakeupRec) (l : List WakeupRec) : List WakeupRec := if w ∈ l then l else l ++ [w]

/-- server/src/event.rs `EventTree::new_hide_wakeups`. -/
def EventTree.new_hide_wakeups (goals hide_wakeups_from : List String) : EventTree :=
  { slab := [], roots := [], wakeups := [], goal_names := goals, goal_spans := [],
    hide_wakeups_from_names := hide_wakeups_from, hide_wakeups_from_spans := [] }

/-- server/src/event.rs `EventTree::new` (test constructor): hides wakeups
from nodes named Control. -/
def EventTree.new (goals : List String) : EventTree :=
  EventTree.new_hide_wakeups goals ["Control"]

/-- server/src/event.rs `EventTree::add_node`: the structured duplicate-node
error path, goal/hide registration, and slab insertion. -/
def EventTree.add_node (t : EventTree) (id : Nat) (buf name : String) (ts : Nat)
    (parent : Option Nat) : Except (String × String) EventTree :=
  if (F2.alGet id t.slab).isSome then Except.error ("duplicate node", buf)
  else
    let t := if name ∈ t.goal_names ∨ t.goal_names = []
      then { t with goal_spans := setInsertNat id t.goal_spans } else t
    let t := if name ∈ t.hide_wakeups_from_names
      then { t with hide_wakeups_from_spans := setInsertNat id t.hide_wakeups_from_spans } else t
    Except.ok { t with slab :=
      (F2.alUpdate id { events := [{ buf := buf, ts := ts }], name := name,
                        parent := parent, children := [] } t.slab) }

/-- Outcome of `EventTree::add`: success, the structured
`Err((failure::Error, String))` carrying the offending payload, or a
process-aborting failure (`assert!` / `expect`), which Rust surfaces as a
panic rather than a return value. -/
inductive AddResult where
  | ok (t : EventTree)
  | err (msg : String) (buf : String)
  | crash (msg : String)
deriving DecidableEq

/-- The `AsyncStart | SyncStart` arm of `EventTree::add`: the `assert!` on a
duplicate id fires before `add_node` could return its structured error; a
present parent gains a child edge, an absent parent demotes the node to a
warned root. -/
def EventTree.addStart (t : EventTree) (buf name : String) (id parent_id ts : Nat) : AddResult :=
  if (F2.alGet id t.slab).isSome then AddResult.crash "duplicate node"
  else
    match F2.alGet parent_id t.slab with
    | some parent_node =>
      let t1 := { t with slab :=
        (F2.alUpdate parent_id { parent_node with children := parent_node.children ++ [id] }
          t.slab) }
      match t1.add_node id buf name ts (some parent_id) with
      | Except.error p => AddResult.err p.1 p.2   -- unreachable: id was checked absent
      | Except.ok t2 => AddResult.ok t2
    | none =>
      -- source prints a parentless-node warning and treats the node as a root
      match t.add_node id buf name ts none with
      | Except.error p => AddResult.err p.1 p.2   -- unreachable: id was checked absent
      | Except.ok t2 => AddResult.ok { t2 with roots := setInsertNat id t2.roots }

/-- The `AsyncOnCPU | AsyncOffCPU | AsyncEnd | SyncEnd | ThreadEnd` arm of
`EventTree::add`: `slab.get_mut(&id).expect("nodeless event")`. -/
def EventTree.addExisting (t : EventTree) (buf : String) (id ts : Nat) : AddResult :=
  match F2.alGet id t.slab with
  | none => AddResult.crash "nodeless event"
  | some node =>
    AddResult.ok { t with slab :=
      (F2.alUpdate id { node with events := node.events ++ [{ buf := buf, ts := ts }] } t.slab) }

/-- server/src/event.rs `EventTree::add`.  The `serde_json::from_str` step is
modelled by taking the decode outcome as an argument next to the raw
buffer; a decode error becomes the structured error carrying the buffer. -/
def EventTree.add (t : EventTree) (buf : String) (parsed : Except String TraceEvent) : AddResult :=
  match parsed with
  | Except.error e => AddResult.err e buf
  | Except.ok event =>
    match event with
    | .ThreadStart name id ts _ =>
      match t.add_node id buf name ts none with
      | Except.error p => AddResult.err p.1 p.2
      | Except.ok t1 => AddResult.ok { t1 with roots := setInsertNat id t1.roots }
    | .AsyncStart name id parent_id ts _ _ => t.addStart buf name id parent_id ts
    | .SyncStart name id parent_id ts _ => t.addStart buf name id parent_id ts
    | .AsyncOnCPU id ts => t.addExisting buf id ts
    | .AsyncOffCPU id ts => t.addExisting buf id ts
    | .AsyncEnd id ts _ => t.addExisting buf id ts
    | .SyncEnd id ts => t.addExisting buf id ts
    | .ThreadEnd id ts => t.addExisting buf id ts
    | .Wakeup waking_span parked_span ts =>
      AddResult.ok { t with wakeups :=
        (wkInsert { event := { buf := buf, ts := ts }, waking_span := waking_span,
                    parked_span := parked_span } t.wakeups) }

/-- server/src/event.rs `EventTree::add_ancestors`: walk the parent chain,
marking nodes seen on the way in and appending their events on the way out
(parent-first).  The source recursion is unbounded; `fuel` bounds it here,
`none` covers both fuel exhaustion and the `expect("ancestor node missing")`
failure, neither of which is reachable on trees built by `add`. -/
def addAncestors (t : EventTree) : Nat → List Nat → List EventResult → Option Nat →
    Option (List Nat × List EventResult)
  | _, seen, result, none => some (seen, result)
  | 0, _, _, some _ => none
  | fuel + 1, seen, result, some id =>
    if id ∈ seen then some (seen, result)
    else
      match F2.alGet id t.slab with
      | none => none
      | some node =>
        match addAncestors t fuel (setInsertNat id seen) result node.parent with
        | none => none
        | some sr => some (sr.1, sr.2 ++ node.events)

/-- server/src/event.rs `EventTree::add_children`, as a worklist of the ids
still to visit at the current position of the pre-order walk: a node's own
events are appended before its children are explored (parent-first), and
the `seen` set suppresses re-emission.  This is the same traversal as the
source's recursion with an explicit continuation; `none` covers fuel
exhaustion and `expect("child node missing")`. -/
def addChildrenGo (t : EventTree) : Nat → List Nat → List EventResult → List Nat →
    Option (List Nat × List EventResult)
  | _, seen, result, [] => some (seen, result)
  | 0, _, _, _ :: _ => none
  | fuel + 1, seen, result, id :: rest =>
    if id ∈ seen then addChildrenGo t fuel seen result rest
    else
      match F2.alGet id t.slab with
      | none => none
      | some node =>
        match addChildrenGo t fuel (setInsertNat id seen) (result ++ node.events) node.children with
        | none => none
        | some sr => addChildrenGo t fuel sr.1 sr.2 rest

/-- The goal loop of `EventTree::filter`: ancestors then descendants for each
goal span, threading the shared `seen` set and result vector.  The fuel
`2 * slab.length + 2` exceeds the call depth of the source recursion on any
tree built by `add` (each nesting level marks a fresh node, and the total
length of all child lists is at most the node count). -/
def EventTree.filterWalk (t : EventTree) : Option (List Nat × List EventResult) :=
  t.goal_spans.foldl
    (fun acc id =>
      match acc with
      | none => none
      | some sr =>
        match F2.alGet id t.slab with
        | none => none   -- expect: this node missing during filter
        | some node =>
          match addAncestors t (2 * t.slab.length + 2) sr.1 sr.2 node.parent with
          | none => none
          | some sr1 => addChildrenGo t (2 * t.slab.length + 2) sr1.1 sr1.2 [id])
    (some ([], []))

/-- The wakeup post-pass condition of `EventTree::filter`: both endpoints
seen, and the waking span not hidden. -/
def eligibleWakeup (t : EventTree) (seen : List Nat) (w : WakeupRec) : Bool :=
  w.waking_span ∈ seen && w.parked_span ∈ seen &&
    !(w.waking_span ∈ t.hide_wakeups_from_spans)

/-- The collected, unsorted output of `EventTree::filter`: walk results
followed by the eligible wakeups. -/
def EventTree.filterCollect (t : EventTree) : Option (List EventResult) :=
  (t.filterWalk).map (fun sr => sr.2 ++ (t.wakeups.filter (eligibleWakeup t sr.1)).map (·.event))

/-- The `Ord` instance on `EventResult` compares only timestamps. -/
def erLe (a b : EventResult) : Prop := a.ts ≤ b.ts

instance : DecidableRel erLe := fun a b => inferInstanceAs (Decidable (a.ts ≤ b.ts))

instance : IsTotal EventResult erLe := ⟨fun a b => Nat.le_total a.ts b.ts⟩

instance : IsTrans EventResult erLe := ⟨fun _ _ _ h1 h2 => Nat.le_trans h1 h2⟩

/-- `result.sort()` in `EventTree::filter`: a sort by timestamp.  The claims
below use only sortedness and the multiset, which every correct sort — in
particular the source's stable sort — satisfies. -/
def EventTree.filterEvents (t : EventTree) : Option (List EventResult) :=
  (t.filterCollect).map (List.insertionSort erLe)

/-- server/src/event.rs `EventTree::filter` (the final `map(|x| x.buf)`). -/
def EventTree.filter (t : EventTree) : Option (List String) :=
  (t.filterEvents).map (·.map (·.buf))

end Server

namespace Glv

/-- One interval of a glviewer/src/layout.rs `Chunk`: the source keeps three
parallel vectors `begins`/`ends`/`tasks` sorted by end; this models one
triple of aligned entries, with the chunk as a list sorted by `end_`. -/
structure Iv where
  begin_ : Nat
  end_ : Nat
  task : Nat
deriving DecidableEq

/-- glviewer/src/layout.rs `Chunk::has_overlap`: find the first interval with
end ≥ the query begin (the source does this by binary search on the sorted
ends; on a sorted list the scan below finds the same position), and report
whether its begin is ≤ the query end. -/
def chunkHasOverlap : List Iv → Nat → Nat → Bool
  | [], _, _ => false
  | iv :: rest, b, e => if iv.end_ < b then chunkHasOverlap rest b e else decide (iv.begin_ ≤ e)

/-- glviewer/src/layout.rs `Chunk::add`: locate the insertion point among the
sorted ends; a present equal end is the source's `Ok(..) => panic!()`, and a
following interval beginning at or before the new end fails the
`assert!(self.begins[index] > span.end)`.  Both failures are `none`. -/
def chunkAdd : List Iv → Nat → Nat → Nat → Option (List Iv)
  | [], b, e, tid => some [{ begin_ := b, end_ := e, task := tid }]
  | iv :: rest, b, e, tid =>
    if iv.end_ = b then none
    else if iv.end_ < b then (chunkAdd rest b e tid).map (iv :: ·)
    else if e < iv.begin_ then some ({ begin_ := b, end_ := e, task := tid } :: iv :: rest)
    else none

/-- crate `db::Task` as used by glviewer/src/layout.rs (its declaration lives
in db.rs, which is not among the provided sources; fields are reconstructed
from their uses in layout.rs and spec section 4.2): an id, an optional
parent, the span extent `[sbegin, send]`, and optional on-CPU sub-spans. -/
structure GTask where
  id : Nat
  parent : Option Nat
  sbegin : Nat
  send : Nat
  on_cpu : Option (List (Nat × Nat))
deriving DecidableEq

/-- glviewer/src/layout.rs `Row`: three interval indexes. -/
structure Row where
  fore : List Iv
  back : List Iv
  reserve : List Iv
deriving DecidableEq

/-- Adding each on-CPU sub-span to a chunk in order (the `for span in on_cpu`
loop of `Row::add`). -/
def chunkAddList (c : List Iv) (spans : List (Nat × Nat)) (tid : Nat) : Option (List Iv) :=
  spans.foldl (fun acc s => acc.bind (fun c1 => chunkAdd c1 s.1 s.2 tid)) (some c)

/-- glviewer/src/layout.rs `Row::add`: a task with on-CPU sub-spans puts its
full extent in `back` (asserting `fore` has no overlap with it) and the
sub-spans in `fore`; a task without puts its extent in `fore` (asserting
`back` has no overlap).  Assertion failures are `none`. -/
def Row.add (row : Row) (task : GTask) : Option Row :=
  match task.on_cpu with
  | some on_cpu =>
    match chunkAdd row.back task.sbegin task.send task.id with
    | none => none
    | some back1 =>
      if chunkHasOverlap row.fore task.sbegin task.send then none
      else
        match chunkAddList row.fore on_cpu task.id with
        | none => none
        | some fore1 => some { fore := fore1, back := back1, reserve := row.reserve }
  | none =>
    match chunkAdd row.fore task.sbegin task.send task.id with
    | none => none
    | some fore1 =>
      if chunkHasOverlap row.back task.sbegin task.send then none
      else some { row with fore := fore1 }

end Glv

/-! ## Helper lemmas about the association-list model of `HashMap`. -/

namespace F2

theorem alGet_alUpdate_self {β : Type} (k : Nat) (v : β) (m : List (Nat × β)) :
    alGet k (alUpdate k v m) = some v := by
  induction m with
  | nil => simp [alUpdate, alGet]
  | cons p rest ih =>
    by_cases h : k = p.1
    · simp [alUpdate, alGet, h]
    · simp [alUpdate, alGet, h, ih]

theorem alGet_alUpdate_ne {β : Type} {k k1 : Nat} (v : β) (m : List (Nat × β))
    (h : k ≠ k1) : alGet k (alUpdate k1 v m) = alGet k m := by
  induction m with
  | nil => simp [alUpdate, alGet, h]
  | cons p rest ih =>
    by_cases h1 : k1 = p.1
    · subst h1
      simp [alUpdate, alGet, h, ih]
    · by_cases h2 : k = p.1
      · simp [alUpdate, alGet, h1, h2]
      · simp [alUpdate, alGet, h1, h2, ih]

theorem alUpdate_keys_of_mem {β : Type} {k : Nat} {m : List (Nat × β)} (v : β)
    (h : (alGet k m).isSome) : (alUpdate k v m).map (·.1) = m.map (·.1) := by
  induction m with
  | nil => simp [alGet] at h
  | cons p rest ih =>
    by_cases h1 : k = p.1
    · simp [alUpdate, h1]
    · simp [alGet, h1] at h
      simp [alUpdate, h1, ih h]

theorem alUpdate_length_of_mem {β : Type} {k : Nat} {m : List (Nat × β)} (v : β)
    (h : (alGet k m).isSome) : (alUpdate k v m).length = m.length := by
  have := alUpdate_keys_of_mem v h
  have h2 := congrArg List.length this
  simpa using h2

theorem bump_time_active (st : State) (ts : Nat) :
    (st.bump_time ts).active_spans = st.active_spans := by
  unfold State.bump_time
  split <;> rfl

theorem bump_time_finished (st : State) (ts : Nat) :
    (st.bump_time ts).finished_spans = st.finished_spans := by
  unfold State.bump_time
  split <;> rfl

theorem bump_time_end_time (st : State) (ts : Nat) :
    (st.bump_time ts).end_time = max st.end_time ts := by
  unfold State.bump_time
  split <;> simp <;> omega

end F2

/-! ## Claim C4: behaviour of the loader on a malformed event. -/

/-- C4 counterexample.  The claim says a malformed event is reported and
"ingestion continues with the next event", so that one malformed event never
aborts the load.  In `read_into` the `out.add_event(item?)` propagates the
first decode error: with the stream [malformed, ThreadStart], the state
stays empty (`len = 0`) even though ingesting the ThreadStart alone yields
`len = 1` — the event after the malformed one is never ingested. -/
theorem c4_counterexample :
    F2.read_into F2.State.new
        [Except.error "bad", Except.ok (F2.TraceEvent.ThreadStart "t" 1 5)]
      = (F2.State.new, some "bad")
    ∧ (F2.read_into F2.State.new [Except.ok (F2.TraceEvent.ThreadStart "t" 1 5)]).1.len = 1 := by
  exact ⟨rfl, rfl⟩

/-- C4 as amended: `read_into` folds `add_event` over the events preceding
the first malformed one and returns that error immediately, ingesting
nothing after it (the result does not depend on `rest`); an error-free
stream is ingested completely. -/
theorem c4_read_into_aborts_at_first_error :
    (∀ (st : F2.State) (pre : List F2.TraceEvent) (e : String)
        (rest : List (Except String F2.TraceEvent)),
      F2.read_into st (pre.map Except.ok ++ Except.error e :: rest)
        = (pre.foldl (fun s ev => (s.add_event ev).1) st, some e))
    ∧ (∀ (st : F2.State) (pre : List F2.TraceEvent),
      F2.read_into st (pre.map Except.ok)
        = (pre.foldl (fun s ev => (s.add_event ev).1) st, none)) := by
  constructor
  · intro st pre e rest
    induction pre generalizing st with
    | nil => rfl
    | cons ev pre ih => simpa [F2.read_into] using ih (st.add_event ev).1
  · intro st pre
    induction pre generalizing st with
    | nil => rfl
    | cons ev pre ih => simpa [F2.read_into] using ih (st.add_event ev).1

/-! ## Claim C5: End event with a mismatched Start kind. -/

/-- C5 counterexample.  The claim says the active-span table is left
unchanged and no finished span is emitted for any kind mismatch.  In the
code, (a) an Async-started span receiving a `SyncEnd` is dropped and logged,
but the active entry was already removed from the table, so the table
shrinks; and (b) a Sync-started span receiving an `AsyncEnd` is not detected
as a mismatch at all: a finished `SyncFinished` span is emitted. -/
theorem c5_counterexample :
    (((F2.State.new.add_event (F2.TraceEvent.AsyncStart "a" 1 0 0 "m")).1.add_event
        (F2.TraceEvent.SyncEnd 1 5)).2 = ["wrong kind of start event"]
    ∧ ((F2.State.new.add_event (F2.TraceEvent.AsyncStart "a" 1 0 0 "m")).1.add_event
        (F2.TraceEvent.SyncEnd 1 5)).1.finished_spans = []
    ∧ (F2.State.new.add_event (F2.TraceEvent.AsyncStart "a" 1 0 0 "m")).1.active_spans.length = 1
    ∧ ((F2.State.new.add_event (F2.TraceEvent.AsyncStart "a" 1 0 0 "m")).1.add_event
        (F2.TraceEvent.SyncEnd 1 5)).1.active_spans = [])
    ∧ (((F2.State.new.add_event (F2.TraceEvent.SyncStart "s" 2 0 0 "m")).1.add_event
        (F2.TraceEvent.AsyncEnd 2 7 F2.AsyncOutcome.Success)).1.finished_spans.length = 1) := by
  exact ⟨⟨rfl, rfl, rfl, rfl⟩, rfl⟩

/-- C5 as amended: the only detected style mismatch is an Async-started span
receiving a Sync/Thread End.  Then the event is dropped and logged and no
finished span is emitted, but the active entry is removed from the table
(and discarded); `end_time` is bumped as usual. -/
theorem c5_async_start_mismatched_end (st : F2.State) (a : F2.ActiveSpan) (i ts : Nat)
    (hget : F2.alGet i st.active_spans = some a)
    (hasync : ∃ n idf p t0 m, a.event = F2.TraceEvent.AsyncStart n idf p t0 m) :
    ((st.add_event (F2.TraceEvent.SyncEnd i ts)).2 = ["wrong kind of start event"]
    ∧ (st.add_event (F2.TraceEvent.SyncEnd i ts)).1.finished_spans = st.finished_spans
    ∧ (st.add_event (F2.TraceEvent.SyncEnd i ts)).1.active_spans
        = F2.alErase i st.active_spans
    ∧ (st.add_event (F2.TraceEvent.SyncEnd i ts)).1.end_time = max st.end_time ts)
    ∧ ((st.add_event (F2.TraceEvent.ThreadEnd i ts)).2 = ["wrong kind of start event"]
    ∧ (st.add_event (F2.TraceEvent.ThreadEnd i ts)).1.finished_spans = st.finished_spans
    ∧ (st.add_event (F2.TraceEvent.ThreadEnd i ts)).1.active_spans
        = F2.alErase i st.active_spans
    ∧ (st.add_event (F2.TraceEvent.ThreadEnd i ts)).1.end_time = max st.end_time ts) := by
  obtain ⟨n, idf, p, t0, m, he⟩ := hasync
  have hget1 : F2.alGet i (st.bump_time ts).active_spans = some a := by
    rw [F2.bump_time_active]
    exact hget
  constructor <;>
    exact ⟨by simp [F2.State.add_event, F2.TraceEvent.ts, hget, hget1, he, F2.bump_time_active],
      by simp [F2.State.add_event, F2.TraceEvent.ts, hget, hget1, he, F2.bump_time_active,
        F2.bump_time_finished],
      by simp [F2.State.add_event, F2.TraceEvent.ts, hget, hget1, he, F2.bump_time_active],
      by simp [F2.State.add_event, F2.TraceEvent.ts, hget, hget1, he, F2.bump_time_active,
        F2.bump_time_end_time]⟩

/-- C5 witness: the amended theorem applied to a concrete state holding an
Async-started active span receiving a `SyncEnd`/`ThreadEnd`. -/
theorem c5_witness :
    (((F2.State.new.add_event (F2.TraceEvent.AsyncStart "a" 1 0 0 "m")).1.add_event
        (F2.TraceEvent.SyncEnd 1 5)).2 = ["wrong kind of start event"]
    ∧ ((F2.State.new.add_event (F2.TraceEvent.AsyncStart "a" 1 0 0 "m")).1.add_event
        (F2.TraceEvent.SyncEnd 1 5)).1.finished_spans
        = (F2.State.new.add_event (F2.TraceEvent.AsyncStart "a" 1 0 0 "m")).1.finished_spans
    ∧ ((F2.State.new.add_event (F2.TraceEvent.AsyncStart "a" 1 0 0 "m")).1.add_event
        (F2.TraceEvent.SyncEnd 1 5)).1.active_spans
        = F2.alErase 1 (F2.State.new.add_event (F2.TraceEvent.AsyncStart "a" 1 0 0 "m")).1.active_spans
    ∧ ((F2.State.new.add_event (F2.TraceEvent.AsyncStart "a" 1 0 0 "m")).1.add_event
        (F2.TraceEvent.SyncEnd 1 5)).1.end_time
        = max (F2.State.new.add_event (F2.TraceEvent.AsyncStart "a" 1 0 0 "m")).1.end_time 5)
    ∧ (((F2.State.new.add_event (F2.TraceEvent.AsyncStart "a" 1 0 0 "m")).1.add_event
        (F2.TraceEvent.ThreadEnd 1 5)).2 = ["wrong kind of start event"]
    ∧ ((F2.State.new.add_event (F2.TraceEvent.AsyncStart "a" 1 0 0 "m")).1.add_event
        (F2.TraceEvent.ThreadEnd 1 5)).1.finished_spans
        = (F2.State.new.add_event (F2.TraceEvent.AsyncStart "a" 1 0 0 "m")).1.finished_spans
    ∧ ((F2.State.new.add_event (F2.TraceEvent.AsyncStart "a" 1 0 0 "m")).1.add_event
        (F2.TraceEvent.ThreadEnd 1 5)).1.active_spans
        = F2.alErase 1 (F2.State.new.add_event (F2.TraceEvent.AsyncStart "a" 1 0 0 "m")).1.active_spans
    ∧ ((F2.State.new.add_event (F2.TraceEvent.AsyncStart "a" 1 0 0 "m")).1.add_event
        (F2.TraceEvent.ThreadEnd 1 5)).1.end_time
        = max (F2.State.new.add_event (F2.TraceEvent.AsyncStart "a" 1 0 0 "m")).1.end_time 5) :=
  c5_async_start_mismatched_end
    (F2.State.new.add_event (F2.TraceEvent.AsyncStart "a" 1 0 0 "m")).1
    { event := F2.TraceEvent.AsyncStart "a" 1 0 0 "m", message := "a m", wakeups := [] }
    1 5 (by rfl) ⟨"a", 1, 0, 0, "m", rfl⟩

/-! ## Sweep allocator lemmas (claims C1 and C2). -/

namespace F2

theorem mem_insSetNat {x a : Nat} {l : List Nat} : x ∈ insSetNat a l ↔ x = a ∨ x ∈ l := by
  induction l with
  | nil => simp [insSetNat]
  | cons b l ih =>
    by_cases h1 : a < b
    · simp [insSetNat, h1]
    · by_cases h2 : a = b
      · subst h2
        simp [insSetNat, h1, List.mem_cons]
      · simp only [insSetNat, if_neg h1, if_neg h2, List.mem_cons, ih]
        tauto

theorem insSetNat_perm {a : Nat} {l : List Nat} (h : a ∉ l) : (insSetNat a l).Perm (a :: l) := by
  induction l with
  | nil => simp [insSetNat]
  | cons b l ih =>
    simp only [List.mem_cons, not_or] at h
    by_cases h1 : a < b
    · simp [insSetNat, h1]
    · simp only [insSetNat, if_neg h1, if_neg h.1]
      exact ((ih h.2).cons b).trans (List.Perm.swap a b l)

theorem insSetNat_sorted {a : Nat} {l : List Nat} (h : List.Pairwise (· < ·) l) :
    List.Pairwise (· < ·) (insSetNat a l) := by
  induction l with
  | nil => simp [insSetNat]
  | cons b l ih =>
    by_cases h1 : a < b
    · simp only [insSetNat, if_pos h1]
      refine List.Pairwise.cons ?_ h
      intro x hx
      rcases List.mem_cons.mp hx with rfl | hx
      · exact h1
      · exact Nat.lt_trans h1 (List.rel_of_pairwise_cons h hx)
    · by_cases h2 : a = b
      · simpa [insSetNat, h1, h2] using h
      · simp only [insSetNat, if_neg h1, if_neg h2]
        refine List.Pairwise.cons ?_ (ih h.tail)
        intro x hx
        rcases mem_insSetNat.mp hx with rfl | hx
        · omega
        · exact List.rel_of_pairwise_cons h hx

theorem mem_insSetPair {x a : Nat × Nat} {l : List (Nat × Nat)} :
    x ∈ insSetPair a l ↔ x = a ∨ x ∈ l := by
  induction l with
  | nil => simp [insSetPair]
  | cons b l ih =>
    by_cases h1 : pairLtB a b
    · simp [insSetPair, h1]
    · by_cases h2 : a = b
      · subst h2
        simp [insSetPair, h1, List.mem_cons]
      · simp only [insSetPair, if_neg h1, if_neg h2, List.mem_cons, ih]
        tauto

theorem insSetPair_perm {a : Nat × Nat} {l : List (Nat × Nat)} (h : a ∉ l) :
    (insSetPair a l).Perm (a :: l) := by
  induction l with
  | nil => simp [insSetPair]
  | cons b l ih =>
    simp only [List.mem_cons, not_or] at h
    by_cases h1 : pairLtB a b
    · simp [insSetPair, h1]
    · simp only [insSetPair, if_neg h1, if_neg h.1]
      exact ((ih h.2).cons b).trans (List.Perm.swap a b l)

/-- On ends sorted nondecreasing by timestamp (as a `BTreeSet` iterates
them), the release loop removes exactly the entries with end before the
span's start (strictly), inserting their rows into the free set. -/
theorem releaseLoop_sorted_spec (ends : List (Nat × Nat)) (free : List Nat) (start : Nat)
    (hsort : List.Pairwise (fun a b => a.1 ≤ b.1) ends) :
    (releaseLoop ends free start).1 = ends.filter (fun e => start ≤ e.1)
    ∧ (releaseLoop ends free start).2
        = ((ends.filter (fun e => e.1 < start)).map (·.2)).foldl (fun f r => insSetNat r f) free := by
  induction ends generalizing free with
  | nil => simp [releaseLoop]
  | cons e rest ih =>
    obtain ⟨ts, row⟩ := e
    by_cases h1 : start ≤ ts
    · have hall : ∀ e2 ∈ rest, start ≤ e2.1 := fun e2 he2 =>
        Nat.le_trans h1 (List.rel_of_pairwise_cons hsort he2)
      have hfil : rest.filter (fun e2 => start ≤ e2.1) = rest :=
        List.filter_eq_self.mpr (fun a ha => by simpa using hall a ha)
      have hfil2 : rest.filter (fun e2 => e2.1 < start) = [] := by
        refine List.filter_eq_nil_iff.mpr (fun a ha => ?_)
        have := hall a ha
        simp
        omega
      simp [releaseLoop, h1, hfil, hfil2, Nat.not_lt.mpr h1]
    · have h2 : ts < start := Nat.lt_of_not_le h1
      have := ih (insSetNat row free) hsort.tail
      simp [releaseLoop, h1, h2, this.1, this.2]

/-- Inserting pairwise-fresh rows into a sorted free set: the result is a
permutation of the concatenation and stays strictly sorted. -/
theorem foldl_insSetNat_spec (rs : List Nat) :
    ∀ (free : List Nat), List.Pairwise (· < ·) free → rs.Nodup → (∀ r ∈ rs, r ∉ free) →
    (rs.foldl (fun f r => insSetNat r f) free).Perm (free ++ rs)
    ∧ List.Pairwise (· < ·) (rs.foldl (fun f r => insSetNat r f) free) := by
  induction rs with
  | nil =>
    intro free hf _ _
    exact ⟨by simp, hf⟩
  | cons r rs ih =>
    intro free hf hnd hfresh
    have hr : r ∉ free := hfresh r (List.mem_cons_self r rs)
    have hstep : (insSetNat r free).Perm (r :: free) := insSetNat_perm hr
    have hf1 : List.Pairwise (· < ·) (insSetNat r free) := insSetNat_sorted hf
    have hfresh1 : ∀ x ∈ rs, x ∉ insSetNat r free := by
      intro x hx hmem
      rcases mem_insSetNat.mp hmem with rfl | hmem
      · exact (List.nodup_cons.mp hnd).1 hx
      · exact hfresh x (List.mem_cons_of_mem r hx) hmem
    have hrec := ih (insSetNat r free) hf1 (List.nodup_cons.mp hnd).2 hfresh1
    refine ⟨?_, by simpa using hrec.2⟩
    have hcalc : (rs.foldl (fun f r2 => insSetNat r2 f) (insSetNat r free)).Perm
        (free ++ r :: rs) :=
      hrec.1.trans ((hstep.append_right rs).trans List.perm_middle.symm)
    simpa using hcalc

theorem head_le_of_sorted {x : Nat} {xs : List Nat} (h : List.Pairwise (· < ·) (x :: xs)) :
    ∀ y ∈ x :: xs, x ≤ y := by
  intro y hy
  rcases List.mem_cons.mp hy with rfl | hy
  · exact Nat.le_refl y
  · exact Nat.le_of_lt (List.rel_of_pairwise_cons h hy)

/-- Well-formedness of a sweep state, as maintained by `lay_out`: occupied
entries sorted by end time with pairwise-distinct rows, a strictly sorted
free set disjoint from them, and all rows below `next_free`. -/
def SweepWF (s : Sweep) : Prop :=
  List.Pairwise (fun a b => a.1 ≤ b.1) s.ends
  ∧ (s.ends.map (·.2)).Nodup
  ∧ List.Pairwise (· < ·) s.free
  ∧ (∀ r ∈ s.free, r ∉ s.ends.map (·.2))
  ∧ (∀ e ∈ s.ends, e.2 < s.next_free)
  ∧ (∀ r ∈ s.free, r < s.next_free)

/-- The release loop as claim C2 words it.  Modelled from the claim text,
not from the source: release every occupied row whose recorded end is less
than OR EQUAL to the span's start. -/
def releaseLoopClaimed : List (Nat × Nat) → List Nat → Nat → List (Nat × Nat) × List Nat
  | [], free, _ => ([], free)
  | (ts, row) :: rest, free, start =>
    if start < ts then ((ts, row) :: rest, free)
    else releaseLoopClaimed rest (insSetNat row free) start

/-- The allocation step as claim C2 words it (release on `end ≤ start`, then
smallest free row, else `next_free`); only the release comparison differs
from `Sweep.alloc`. -/
def sweepAllocClaimed (s : Sweep) (sp : Span) : Nat × Sweep :=
  match releaseLoopClaimed s.ends s.free sp.start with
  | (ends1, row :: restFree) =>
    (row, { next_free := s.next_free, free := restFree, ends := insSetPair (sp.end_, row) ends1 })
  | (ends1, []) =>
    (s.next_free,
     { next_free := s.next_free + 1, free := [],
       ends := insSetPair (sp.end_, s.next_free) ends1 })

end F2

/-- C2 counterexample.  The claim releases rows with recorded end ≤ the next
span's start; the code keeps them (`if ts >= sp.start break`).  Concretely:
after laying out a span over [0, 5) — third conjunct — a span starting
exactly at 5 is given the fresh row 1 by the code, whereas the claimed rule
would reuse row 0. -/
theorem c2_counterexample :
    (F2.Sweep.alloc { next_free := 1, free := [], ends := [(5, 0)] }
      { id := 2, parent_id := none, start := 5, end_ := 10, message := "",
        wakeups := [], style := F2.SpanStyle.SyncFinished }).1 = 1
    ∧ (F2.sweepAllocClaimed { next_free := 1, free := [], ends := [(5, 0)] }
      { id := 2, parent_id := none, start := 5, end_ := 10, message := "",
        wakeups := [], style := F2.SpanStyle.SyncFinished }).1 = 0
    ∧ (F2.Sweep.alloc F2.Sweep.new
        { id := 1, parent_id := none, start := 0, end_ := 5, message := "",
          wakeups := [], style := F2.SpanStyle.SyncFinished }).2
      = { next_free := 1, free := [], ends := [(5, 0)] } := by
  exact ⟨rfl, rfl, rfl⟩

/-- C2 as amended: for a well-formed sweep, `Sweep::alloc` (a) keeps occupied
exactly the rows whose recorded end is ≥ the span's start — the release
comparison is strict — plus the new `(end, row)` entry, and (b) allocates
the smallest row of the free set as grown by the released rows, falling
back to `next_free` (incrementing it) only when that pool is empty. -/
theorem c2_alloc_characterization (s : F2.Sweep) (sp : F2.Span) (hwf : F2.SweepWF s) :
    ((s.alloc sp).2.ends).Perm
        ((sp.end_, (s.alloc sp).1) :: s.ends.filter (fun e => sp.start ≤ e.1))
    ∧ ((s.free ++ (s.ends.filter (fun e => e.1 < sp.start)).map (·.2)) = [] →
        (s.alloc sp).1 = s.next_free
        ∧ (s.alloc sp).2.next_free = s.next_free + 1
        ∧ (s.alloc sp).2.free = [])
    ∧ ((s.free ++ (s.ends.filter (fun e => e.1 < sp.start)).map (·.2)) ≠ [] →
        (s.alloc sp).1 ∈ (s.free ++ (s.ends.filter (fun e => e.1 < sp.start)).map (·.2))
        ∧ (∀ x ∈ (s.free ++ (s.ends.filter (fun e => e.1 < sp.start)).map (·.2)),
            (s.alloc sp).1 ≤ x)
        ∧ (s.alloc sp).2.next_free = s.next_free
        ∧ ((s.alloc sp).2.free).Perm
            ((s.free ++ (s.ends.filter (fun e => e.1 < sp.start)).map (·.2)).erase
              (s.alloc sp).1)) := by
  obtain ⟨hsort, hnd, hfsort, hdisj, hbound, hfbound⟩ := hwf
  obtain ⟨hrel1, hrel2⟩ := F2.releaseLoop_sorted_spec s.ends s.free sp.start hsort
  have hsub : ∀ x ∈ (s.ends.filter (fun e => e.1 < sp.start)).map (·.2),
      x ∈ s.ends.map (·.2) := by
    intro x hx
    obtain ⟨e, he, rfl⟩ := List.mem_map.mp hx
    exact List.mem_map.mpr ⟨e, List.mem_of_mem_filter he, rfl⟩
  have hndrel : ((s.ends.filter (fun e => e.1 < sp.start)).map (·.2)).Nodup := by
    have hsl : ((s.ends.filter (fun e => e.1 < sp.start)).map (·.2)).Sublist
        (s.ends.map (·.2)) := (List.filter_sublist s.ends).map (·.2)
    exact hnd.sublist hsl
  have hfresh : ∀ r ∈ (s.ends.filter (fun e => e.1 < sp.start)).map (·.2), r ∉ s.free := by
    intro r hr hrf
    exact hdisj r hrf (hsub r hr)
  have hpool := F2.foldl_insSetNat_spec _ s.free hfsort hndrel hfresh
  rw [← hrel2] at hpool
  have hkept : ∀ e ∈ (F2.releaseLoop s.ends s.free sp.start).1, e ∈ s.ends := by
    intro e he
    rw [hrel1] at he
    exact List.mem_of_mem_filter he
  rcases hrl : F2.releaseLoop s.ends s.free sp.start with ⟨ends1, free1⟩
  simp only [hrl] at hrel1 hrel2 hpool hkept
  cases free1 with
  | nil =>
    have hpoolnil : (s.free ++ (s.ends.filter (fun e => e.1 < sp.start)).map (·.2)) = [] :=
      hpool.1.symm.eq_nil
    refine ⟨?_, fun _ => ?_, fun hne => absurd hpoolnil hne⟩
    · have hnotin : (sp.end_, s.next_free) ∉ ends1 := by
        intro hmem
        have := hbound _ (hkept _ hmem)
        simp at this
      have hperm := F2.insSetPair_perm hnotin
      rw [← hrel1]
      simp only [F2.Sweep.alloc, hrl]
      exact hperm
    · simp [F2.Sweep.alloc, hrl]
  | cons row rest =>
    have hrowpool : row ∈ (s.free ++ (s.ends.filter (fun e => e.1 < sp.start)).map (·.2)) :=
      hpool.1.mem_iff.mp (List.mem_cons_self row rest)
    have hpoolne : (s.free ++ (s.ends.filter (fun e => e.1 < sp.start)).map (·.2)) ≠ [] := by
      intro h0
      rw [h0] at hrowpool
      exact List.not_mem_nil row hrowpool
    refine ⟨?_, fun h0 => absurd h0 hpoolne, fun _ => ⟨?_, ?_, ?_, ?_⟩⟩
    · have hrownotin : row ∉ ends1.map (·.2) := by
        intro hmem
        obtain ⟨e, he, hee⟩ := List.mem_map.mp hmem
        have hein : e ∈ s.ends := hkept e he
        rcases List.mem_append.mp hrowpool with hrf | hrr
        · exact hdisj row hrf (List.mem_map.mpr ⟨e, hein, hee⟩)
        · rw [hrel1] at he
          obtain ⟨e2, he2, he2e⟩ := List.mem_map.mp hrr
          have he2in : e2 ∈ s.ends := List.mem_of_mem_filter he2
          have hne2 : e2 ≠ e := by
            intro hcontra
            subst hcontra
            have hp1 := List.of_mem_filter he2
            have hp2 := List.of_mem_filter he
            simp at hp1 hp2
            omega
          exact hne2 (List.inj_on_of_nodup_map hnd he2in
            (List.mem_of_mem_filter he) (by rw [he2e, hee]))
      have hnotin : (sp.end_, row) ∉ ends1 := by
        intro hmem
        exact hrownotin (List.mem_map.mpr ⟨_, hmem, rfl⟩)
      have hperm := F2.insSetPair_perm hnotin
      rw [← hrel1]
      simp only [F2.Sweep.alloc, hrl]
      exact hperm
    · simpa only [F2.Sweep.alloc, hrl] using hrowpool
    · intro x hx
      have hx1 : x ∈ row :: rest := hpool.1.mem_iff.mpr hx
      have := F2.head_le_of_sorted hpool.2 x hx1
      simpa only [F2.Sweep.alloc, hrl] using this
    · simp only [F2.Sweep.alloc, hrl]
    · have hresult : rest.Perm
          ((s.free ++ (s.ends.filter (fun e => e.1 < sp.start)).map (·.2)).erase row) := by
        have h1 := hpool.1.erase row
        rw [List.erase_cons_head] at h1
        exact h1
      simpa only [F2.Sweep.alloc, hrl] using hresult

/-- C2 witness: the characterization at a concrete sweep holding rows 0
(closing at 4) and 1 (closing at 9), with row 5 free, for a span starting
at 6: row 0 is released and reused as the least of the pool {5, 0}. -/
theorem c2_witness :
    (F2.Sweep.alloc { next_free := 6, free := [5], ends := [(4, 0), (9, 1)] }
        { id := 7, parent_id := none, start := 6, end_ := 12, message := "",
          wakeups := [], style := F2.SpanStyle.SyncFinished }).1 = 0
    ∧ ((F2.Sweep.alloc { next_free := 6, free := [5], ends := [(4, 0), (9, 1)] }
        { id := 7, parent_id := none, start := 6, end_ := 12, message := "",
          wakeups := [], style := F2.SpanStyle.SyncFinished }).2.ends).Perm
        [(12, 0), (9, 1)] := by
  have h := c2_alloc_characterization
    { next_free := 6, free := [5], ends := [(4, 0), (9, 1)] }
    { id := 7, parent_id := none, start := 6, end_ := 12, message := "",
      wakeups := [], style := F2.SpanStyle.SyncFinished }
    (by refine ⟨?_, ?_, ?_, ?_, ?_, ?_⟩ <;> decide)
  have h3 := h.2.2 (by decide)
  have hle : (F2.Sweep.alloc { next_free := 6, free := [5], ends := [(4, 0), (9, 1)] }
      { id := 7, parent_id := none, start := 6, end_ := 12, message := "",
        wakeups := [], style := F2.SpanStyle.SyncFinished }).1 ≤ 0 := by
    have := h3.2.1 0
    simp at this
    simpa using this
  have h0 : (F2.Sweep.alloc { next_free := 6, free := [5], ends := [(4, 0), (9, 1)] }
      { id := 7, parent_id := none, start := 6, end_ := 12, message := "",
        wakeups := [], style := F2.SpanStyle.SyncFinished }).1 = 0 := Nat.le_zero.mp hle
  refine ⟨h0, ?_⟩
  have h1 := h.1
  rw [h0] at h1
  simpa using h1

/-! ## The `lay_out` sweep invariant (claims C1 and C6). -/

namespace F2

theorem plGet_plUpdate_self {β : Type} (k : Path) (v : β) (m : List (Path × β)) :
    plGet k (plUpdate k v m) = some v := by
  induction m with
  | nil => simp [plUpdate, plGet]
  | cons p rest ih =>
    by_cases h : k = p.1
    · simp [plUpdate, plGet, h]
    · simp [plUpdate, plGet, h, ih]

theorem plGet_plUpdate_ne {β : Type} {k k1 : Path} (v : β) (m : List (Path × β))
    (h : k ≠ k1) : plGet k (plUpdate k1 v m) = plGet k m := by
  induction m with
  | nil => simp [plUpdate, plGet, h]
  | cons p rest ih =>
    by_cases h1 : k1 = p.1
    · subst h1
      simp [plUpdate, plGet, h, ih]
    · by_cases h2 : k = p.1
      · simp [plUpdate, plGet, h1, h2]
      · simp [plUpdate, plGet, h1, h2, ih]

/-- Unconditional decomposition of the release loop: the peeled prefix all
closed strictly before `start`, and its rows are folded into the free set. -/
theorem releaseLoop_decomp (ends : List (Nat × Nat)) (free : List Nat) (start : Nat) :
    ∃ peeled, ends = peeled ++ (releaseLoop ends free start).1
    ∧ (∀ e ∈ peeled, e.1 < start)
    ∧ (releaseLoop ends free start).2
        = (peeled.map (·.2)).foldl (fun f r => insSetNat r f) free := by
  induction ends generalizing free with
  | nil => exact ⟨[], by simp [releaseLoop]⟩
  | cons e rest ih =>
    obtain ⟨ts, row⟩ := e
    by_cases h1 : start ≤ ts
    · refine ⟨[], by simp [releaseLoop, h1]⟩
    · obtain ⟨peeled, hp1, hp2, hp3⟩ := ih (insSetNat row free)
      refine ⟨(ts, row) :: peeled, ?_, ?_, ?_⟩
      · simpa [releaseLoop, h1] using hp1
      · intro e2 he2
        rcases List.mem_cons.mp he2 with rfl | he2
        · simpa using Nat.lt_of_not_le h1
        · exact hp2 e2 he2
      · simpa [releaseLoop, h1] using hp3

theorem mem_foldl_insSetNat {x : Nat} (rs : List Nat) :
    ∀ free, x ∈ rs.foldl (fun f r => insSetNat r f) free ↔ x ∈ rs ∨ x ∈ free := by
  induction rs with
  | nil => intro free; simp
  | cons r rs ih =>
    intro free
    simp only [List.foldl_cons, ih, mem_insSetNat, List.mem_cons]
    tauto

/-- The two shapes of `Sweep::alloc`, exposed as an equation on the result. -/
theorem alloc_cases (s0 : Sweep) (sp : Span) :
    ((releaseLoop s0.ends s0.free sp.start).2 = []
      ∧ (s0.alloc sp).1 = s0.next_free
      ∧ (s0.alloc sp).2.next_free = s0.next_free + 1
      ∧ (s0.alloc sp).2.free = []
      ∧ (s0.alloc sp).2.ends
          = insSetPair (sp.end_, s0.next_free) (releaseLoop s0.ends s0.free sp.start).1)
    ∨ (∃ rest, (releaseLoop s0.ends s0.free sp.start).2 = (s0.alloc sp).1 :: rest
      ∧ (s0.alloc sp).2.next_free = s0.next_free
      ∧ (s0.alloc sp).2.free = rest
      ∧ (s0.alloc sp).2.ends
          = insSetPair (sp.end_, (s0.alloc sp).1)
            (releaseLoop s0.ends s0.free sp.start).1) := by
  rcases hrl : releaseLoop s0.ends s0.free sp.start with ⟨ends1, free1⟩
  cases free1 with
  | nil => exact Or.inl (by simp [Sweep.alloc, hrl])
  | cons row rest => exact Or.inr ⟨rest, by simp [Sweep.alloc, hrl]⟩

/-- The trace entries at a given sweep key and row. -/
def trEntries (tr : List TEntry) (P : Path) (r : Nat) : List TEntry :=
  tr.filter (fun e => e.ppath = P ∧ e.row = r)

theorem mem_trEntries {e : TEntry} {tr : List TEntry} {P : Path} {r : Nat} :
    e ∈ trEntries tr P r ↔ e ∈ tr ∧ e.ppath = P ∧ e.row = r := by
  simp [trEntries]

theorem trEntries_append_match {tr : List TEntry} {en : TEntry} :
    trEntries (tr ++ [en]) en.ppath en.row = trEntries tr en.ppath en.row ++ [en] := by
  simp [trEntries, List.filter_append]

theorem trEntries_append_nomatch {tr : List TEntry} {en : TEntry} {P : Path} {r : Nat}
    (h : ¬ (en.ppath = P ∧ en.row = r)) :
    trEntries (tr ++ [en]) P r = trEntries tr P r := by
  simp only [trEntries, List.filter_append, List.filter_cons, List.filter_nil]
  split
  · next hcond =>
    exfalso
    apply h
    simpa using hcond
  · simp

theorem trEntries_pairwise {R : TEntry → TEntry → Prop} {tr : List TEntry} {P : Path} {r : Nat}
    (h : List.Pairwise R tr) : List.Pairwise R (trEntries tr P r) := h.filter _

/-- The separation relation maintained between trace entries sharing a sweep
key and a raw row: the earlier span ends strictly before the later starts. -/
def chainR (a b : TEntry) : Prop :=
  a.ppath = b.ppath → a.row = b.row → a.span.end_ < b.span.start

/-- The invariant carried through the first loop of `lay_out`, relating the
sweeps map to the trace of processed spans and to the remaining spans. -/
structure LayInv (sweeps : List (Path × Sweep)) (tr : List TEntry) (rem : List Span) : Prop where
  sweepsNone : ∀ P, plGet P sweeps = none → ∀ r, trEntries tr P r = []
  endsOk : ∀ P s, plGet P sweeps = some s → ∀ e ∈ s.ends,
    ∃ en, (trEntries tr P e.2).getLast? = some en ∧ en.span.end_ = e.1
  freeOk : ∀ P s, plGet P sweeps = some s → ∀ r ∈ s.free,
    ∃ en, (trEntries tr P r).getLast? = some en ∧ ∀ sp ∈ rem, en.span.end_ < sp.start
  freshOk : ∀ P s, plGet P sweeps = some s → ∀ r, s.next_free ≤ r → trEntries tr P r = []
  endsBound : ∀ P s, plGet P sweeps = some s → ∀ e ∈ s.ends, e.2 < s.next_free
  freeBound : ∀ P s, plGet P sweeps = some s → ∀ r ∈ s.free, r < s.next_free
  endsNodup : ∀ P s, plGet P sweeps = some s → (s.ends.map (·.2)).Nodup
  freeSorted : ∀ P s, plGet P sweeps = some s → List.Pairwise (· < ·) s.free
  disj : ∀ P s, plGet P sweeps = some s → ∀ r ∈ s.free, r ∉ s.ends.map (·.2)
  startsLe : ∀ en ∈ tr, ∀ sp ∈ rem, en.span.start ≤ sp.start
  chain : List.Pairwise chainR tr

/-- Extending the chain: any earlier entry on the same key and row ends
before `sp` starts, provided the last such entry does. -/
theorem chain_extend {tr : List TEntry} {pp : Path} {row : Nat} {sp : Span}
    (hchain : List.Pairwise chainR tr)
    (hstarts : ∀ en ∈ tr, en.span.start ≤ sp.start)
    (hlast : ∃ en0, (trEntries tr pp row).getLast? = some en0 ∧ en0.span.end_ < sp.start) :
    ∀ a ∈ tr, a.ppath = pp → a.row = row → a.span.end_ < sp.start := by
  obtain ⟨en0, hget, hend⟩ := hlast
  intro a ha hap har
  have hamem : a ∈ trEntries tr pp row := mem_trEntries.mpr ⟨ha, hap, har⟩
  obtain ⟨es0, hes⟩ := List.getLast?_eq_some_iff.mp hget
  have hen0mem : en0 ∈ trEntries tr pp row := by
    rw [hes]
    exact List.mem_append.mpr (Or.inr (List.mem_cons_self en0 []))
  have hen0tr : en0 ∈ tr := (mem_trEntries.mp hen0mem).1
  rw [hes] at hamem
  rcases List.mem_append.mp hamem with ha0 | ha1
  · have hps : List.Pairwise chainR (es0 ++ [en0]) := by
      rw [← hes]
      exact trEntries_pairwise hchain
    have hrel : chainR a en0 := by
      rcases List.pairwise_append.mp hps with ⟨_, _, hcross⟩
      exact hcross a ha0 en0 (List.mem_cons_self en0 [])
    have hen0p := mem_trEntries.mp hen0mem
    have hlt : a.span.end_ < en0.span.start :=
      hrel (by rw [hap, hen0p.2.1]) (by rw [har, hen0p.2.2])
    exact Nat.lt_of_lt_of_le hlt (hstarts en0 hen0tr)
  · have : a = en0 := by simpa using ha1
    rw [this]
    exact hend

/-- Assembly of the invariant after one step, from local facts about the
updated sweep `s1` at key `pp` and row `row` for span `sp`. -/
theorem layInv_step_core {sweeps : List (Path × Sweep)} {tr : List TEntry} {sp : Span}
    {rem : List Span} {pp : Path} {s1 : Sweep} {row : Nat}
    (hinv : LayInv sweeps tr (sp :: rem))
    (hhead : ∀ sp2 ∈ rem, sp.start ≤ sp2.start)
    (hendsOk1 : ∀ e ∈ s1.ends, e = (sp.end_, row)
      ∨ (e.2 ≠ row ∧ ∃ en, (trEntries tr pp e.2).getLast? = some en ∧ en.span.end_ = e.1))
    (hfreeOk1 : ∀ r ∈ s1.free, r ≠ row
      ∧ ∃ en, (trEntries tr pp r).getLast? = some en ∧ ∀ sp2 ∈ rem, en.span.end_ < sp2.start)
    (hfreshOk1 : ∀ r, s1.next_free ≤ r → r ≠ row ∧ trEntries tr pp r = [])
    (hchainrow : ∀ a ∈ tr, a.ppath = pp → a.row = row → a.span.end_ < sp.start)
    (hendsBound1 : ∀ e ∈ s1.ends, e.2 < s1.next_free)
    (hfreeBound1 : ∀ r ∈ s1.free, r < s1.next_free)
    (hendsNodup1 : (s1.ends.map (·.2)).Nodup)
    (hfreeSorted1 : List.Pairwise (· < ·) s1.free)
    (hdisj1 : ∀ r ∈ s1.free, r ∉ s1.ends.map (·.2)) :
    LayInv (plUpdate pp s1 sweeps) (tr ++ [{ span := sp, ppath := pp, row := row }]) rem := by
  have hspmem : sp ∈ sp :: rem := List.mem_cons_self sp rem
  have happnomatch : ∀ (P : Path) (r : Nat), ¬ (P = pp ∧ r = row) →
      trEntries (tr ++ [{ span := sp, ppath := pp, row := row }]) P r = trEntries tr P r := by
    intro P r hne
    refine trEntries_append_nomatch ?_
    intro hc
    exact hne ⟨hc.1.symm, hc.2.symm⟩
  have happmatch :
      trEntries (tr ++ [{ span := sp, ppath := pp, row := row }]) pp row
        = trEntries tr pp row ++ [{ span := sp, ppath := pp, row := row }] :=
    trEntries_append_match
  refine ⟨?_, ?_, ?_, ?_, ?_, ?_, ?_, ?_, ?_, ?_, ?_⟩
  · -- sweepsNone
    intro P hP r
    have hne : P ≠ pp := by
      intro hc
      rw [hc, plGet_plUpdate_self] at hP
      exact Option.noConfusion hP
    rw [plGet_plUpdate_ne _ _ hne] at hP
    rw [happnomatch P r (fun hc => hne hc.1)]
    exact hinv.sweepsNone P hP r
  · -- endsOk
    intro P s hP e he
    by_cases hPp : P = pp
    · subst hPp
      rw [plGet_plUpdate_self] at hP
      obtain rfl := Option.some.inj hP
      rcases hendsOk1 e he with rfl | ⟨hner, en, hget, hend⟩
      · refine ⟨{ span := sp, ppath := P, row := row }, ?_, rfl⟩
        simp only
        rw [happmatch]
        exact List.getLast?_concat _
      · refine ⟨en, ?_, hend⟩
        rw [happnomatch P e.2 (fun hc => hner hc.2)]
        exact hget
    · rw [plGet_plUpdate_ne _ _ hPp] at hP
      obtain ⟨en, hget, hend⟩ := hinv.endsOk P s hP e he
      refine ⟨en, ?_, hend⟩
      rw [happnomatch P e.2 (fun hc => hPp hc.1)]
      exact hget
  · -- freeOk
    intro P s hP r hr
    by_cases hPp : P = pp
    · subst hPp
      rw [plGet_plUpdate_self] at hP
      obtain rfl := Option.some.inj hP
      obtain ⟨hner, en, hget, hbd⟩ := hfreeOk1 r hr
      refine ⟨en, ?_, hbd⟩
      rw [happnomatch P r (fun hc => hner hc.2)]
      exact hget
    · rw [plGet_plUpdate_ne _ _ hPp] at hP
      obtain ⟨en, hget, hbd⟩ := hinv.freeOk P s hP r hr
      refine ⟨en, ?_, fun sp2 hsp2 => hbd sp2 (List.mem_cons_of_mem sp hsp2)⟩
      rw [happnomatch P r (fun hc => hPp hc.1)]
      exact hget
  · -- freshOk
    intro P s hP r hnf
    by_cases hPp : P = pp
    · subst hPp
      rw [plGet_plUpdate_self] at hP
      obtain rfl := Option.some.inj hP
      obtain ⟨hner, hempty⟩ := hfreshOk1 r hnf
      rw [happnomatch P r (fun hc => hner hc.2)]
      exact hempty
    · rw [plGet_plUpdate_ne _ _ hPp] at hP
      rw [happnomatch P r (fun hc => hPp hc.1)]
      exact hinv.freshOk P s hP r hnf
  · -- endsBound
    intro P s hP e he
    by_cases hPp : P = pp
    · subst hPp
      rw [plGet_plUpdate_self] at hP
      obtain rfl := Option.some.inj hP
      exact hendsBound1 e he
    · rw [plGet_plUpdate_ne _ _ hPp] at hP
      exact hinv.endsBound P s hP e he
  · -- freeBound
    intro P s hP r hr
    by_cases hPp : P = pp
    · subst hPp
      rw [plGet_plUpdate_self] at hP
      obtain rfl := Option.some.inj hP
      exact hfreeBound1 r hr
    · rw [plGet_plUpdate_ne _ _ hPp] at hP
      exact hinv.freeBound P s hP r hr
  · -- endsNodup
    intro P s hP
    by_cases hPp : P = pp
    · subst hPp
      rw [plGet_plUpdate_self] at hP
      obtain rfl := Option.some.inj hP
      exact hendsNodup1
    · rw [plGet_plUpdate_ne _ _ hPp] at hP
      exact hinv.endsNodup P s hP
  · -- freeSorted
    intro P s hP
    by_cases hPp : P = pp
    · subst hPp
      rw [plGet_plUpdate_self] at hP
      obtain rfl := Option.some.inj hP
      exact hfreeSorted1
    · rw [plGet_plUpdate_ne _ _ hPp] at hP
      exact hinv.freeSorted P s hP
  · -- disj
    intro P s hP
    by_cases hPp : P = pp
    · subst hPp
      rw [plGet_plUpdate_self] at hP
      obtain rfl := Option.some.inj hP
      exact hdisj1
    · rw [plGet_plUpdate_ne _ _ hPp] at hP
      exact hinv.disj P s hP
  · -- startsLe
    intro en hen sp2 hsp2
    rcases List.mem_append.mp hen with hen | hen
    · exact hinv.startsLe en hen sp2 (List.mem_cons_of_mem sp hsp2)
    · have : en = { span := sp, ppath := pp, row := row } := by simpa using hen
      rw [this]
      exact hhead sp2 hsp2
  · -- chain
    rw [List.pairwise_append]
    refine ⟨hinv.chain, by simp, ?_⟩
    intro a ha b hb
    have hb2 : b = { span := sp, ppath := pp, row := row } := by simpa using hb
    rw [hb2]
    intro hap har
    exact hchainrow a ha hap har

theorem mem_map_insSetPair {x : Nat} {a : Nat × Nat} {l : List (Nat × Nat)}
    (h : x ∈ (insSetPair a l).map (·.2)) : x = a.2 ∨ x ∈ l.map (·.2) := by
  obtain ⟨e, he, rfl⟩ := List.mem_map.mp h
  rcases mem_insSetPair.mp he with rfl | he
  · exact Or.inl rfl
  · exact Or.inr (List.mem_map.mpr ⟨e, he, rfl⟩)

/-- One step of the first loop of `lay_out` preserves the invariant, for any
parent path `pp` (the invariant does not depend on how `pp` is computed). -/
theorem layInv_step {sweeps : List (Path × Sweep)} {tr : List TEntry} {sp : Span}
    {rem : List Span} (pp : Path)
    (hhead : ∀ sp2 ∈ rem, sp.start ≤ sp2.start)
    (hinv : LayInv sweeps tr (sp :: rem)) :
    LayInv (plUpdate pp (((plGet pp sweeps).getD Sweep.new).alloc sp).2 sweeps)
      (tr ++ [{ span := sp, ppath := pp,
                row := (((plGet pp sweeps).getD Sweep.new).alloc sp).1 }]) rem := by
  have hspmem : sp ∈ sp :: rem := List.mem_cons_self sp rem
  set s0 := (plGet pp sweeps).getD Sweep.new with hs0
  have hs0facts :
      (∀ e ∈ s0.ends, ∃ en, (trEntries tr pp e.2).getLast? = some en ∧ en.span.end_ = e.1)
      ∧ (∀ r ∈ s0.free,
          ∃ en, (trEntries tr pp r).getLast? = some en ∧ ∀ sp2 ∈ sp :: rem, en.span.end_ < sp2.start)
      ∧ (∀ r, s0.next_free ≤ r → trEntries tr pp r = [])
      ∧ (∀ e ∈ s0.ends, e.2 < s0.next_free)
      ∧ (∀ r ∈ s0.free, r < s0.next_free)
      ∧ ((s0.ends.map (·.2)).Nodup)
      ∧ (List.Pairwise (· < ·) s0.free)
      ∧ (∀ r ∈ s0.free, r ∉ s0.ends.map (·.2)) := by
    cases hP : plGet pp sweeps with
    | none =>
      rw [hs0, hP]
      simp only [Option.getD_none]
      refine ⟨by simp [Sweep.new], by simp [Sweep.new], ?_, by simp [Sweep.new],
        by simp [Sweep.new], by simp [Sweep.new], by simp [Sweep.new], by simp [Sweep.new]⟩
      intro r _
      exact hinv.sweepsNone pp hP r
    | some s =>
      rw [hs0, hP]
      simp only [Option.getD_some]
      exact ⟨hinv.endsOk pp s hP, hinv.freeOk pp s hP, hinv.freshOk pp s hP,
        hinv.endsBound pp s hP, hinv.freeBound pp s hP, hinv.endsNodup pp s hP,
        hinv.freeSorted pp s hP, hinv.disj pp s hP⟩
  obtain ⟨hs0ends, hs0free, hs0fresh, hs0endsBound, hs0freeBound, hs0endsNodup,
    hs0freeSorted, hs0disj⟩ := hs0facts
  obtain ⟨peeled, hpeel1, hpeel2, hpeel3⟩ := releaseLoop_decomp s0.ends s0.free sp.start
  have hends1sub : ∀ e ∈ (releaseLoop s0.ends s0.free sp.start).1, e ∈ s0.ends := by
    intro e he
    rw [hpeel1]
    exact List.mem_append.mpr (Or.inr he)
  have hpeeledsub : ∀ e ∈ peeled, e ∈ s0.ends := by
    intro e he
    rw [hpeel1]
    exact List.mem_append.mpr (Or.inl he)
  have hnodups : (peeled.map (·.2)).Nodup
      ∧ (((releaseLoop s0.ends s0.free sp.start).1).map (·.2)).Nodup
      ∧ ∀ x ∈ peeled.map (·.2), x ∉ ((releaseLoop s0.ends s0.free sp.start).1).map (·.2) := by
    have h1 := hs0endsNodup
    rw [hpeel1, List.map_append] at h1
    obtain ⟨ha, hb, hc⟩ := List.nodup_append.mp h1
    exact ⟨ha, hb, fun x hx => hc hx⟩
  have hends1mapsub : ∀ x ∈ ((releaseLoop s0.ends s0.free sp.start).1).map (·.2),
      x ∈ s0.ends.map (·.2) := by
    intro x hx
    obtain ⟨e, he, rfl⟩ := List.mem_map.mp hx
    exact List.mem_map.mpr ⟨e, hends1sub e he, rfl⟩
  have hpeeledmapsub : ∀ x ∈ peeled.map (·.2), x ∈ s0.ends.map (·.2) := by
    intro x hx
    obtain ⟨e, he, rfl⟩ := List.mem_map.mp hx
    exact List.mem_map.mpr ⟨e, hpeeledsub e he, rfl⟩
  have hfree1mem : ∀ x, x ∈ (releaseLoop s0.ends s0.free sp.start).2 ↔
      x ∈ peeled.map (·.2) ∨ x ∈ s0.free := by
    intro x
    rw [hpeel3]
    exact mem_foldl_insSetNat _ _
  have hpeeledfresh : ∀ r ∈ peeled.map (·.2), r ∉ s0.free := by
    intro r hr hrf
    exact hs0disj r hrf (hpeeledmapsub r hr)
  have hfree1sorted : List.Pairwise (· < ·) (releaseLoop s0.ends s0.free sp.start).2 := by
    rw [hpeel3]
    exact (foldl_insSetNat_spec _ s0.free hs0freeSorted hnodups.1 hpeeledfresh).2
  -- facts usable in both allocation branches
  have hpoolbound : ∀ r, (r ∈ peeled.map (·.2) ∨ r ∈ s0.free) → r < s0.next_free := by
    intro r hr
    rcases hr with hr | hr
    · obtain ⟨e, he, rfl⟩ := List.mem_map.mp hr
      exact hs0endsBound e (hpeeledsub e he)
    · exact hs0freeBound r hr
  have hpoolhist : ∀ r, (r ∈ peeled.map (·.2) ∨ r ∈ s0.free) →
      ∃ en, (trEntries tr pp r).getLast? = some en ∧ en.span.end_ < sp.start := by
    intro r hr
    rcases hr with hr | hr
    · obtain ⟨e, he, rfl⟩ := List.mem_map.mp hr
      obtain ⟨en, hget, hend⟩ := hs0ends e (hpeeledsub e he)
      exact ⟨en, hget, hend ▸ hpeel2 e he⟩
    · obtain ⟨en, hget, hbd⟩ := hs0free r hr
      exact ⟨en, hget, hbd sp hspmem⟩
  have hpoolnotends1 : ∀ r, (r ∈ peeled.map (·.2) ∨ r ∈ s0.free) →
      r ∉ ((releaseLoop s0.ends s0.free sp.start).1).map (·.2) := by
    intro r hr hrin
    rcases hr with hr | hr
    · exact hnodups.2.2 r hr hrin
    · exact hs0disj r hr (hends1mapsub r hrin)
  rcases alloc_cases s0 sp with ⟨hfree1nil, hrow, hnf1, hfree1, hends1eq⟩ |
      ⟨rest, hfree1cons, hnf1, hfree1, hends1eq⟩
  · -- fresh-row branch
    have hrowfresh : trEntries tr pp (s0.alloc sp).1 = [] := by
      rw [hrow]
      exact hs0fresh s0.next_free (Nat.le_refl _)
    have hrownotends1 : (s0.alloc sp).1 ∉ ((releaseLoop s0.ends s0.free sp.start).1).map (·.2) := by
      intro hmem
      obtain ⟨e, he, hee⟩ := List.mem_map.mp hmem
      have := hs0endsBound e (hends1sub e he)
      rw [hee, hrow] at this
      omega
    have hnotinPair : (sp.end_, (s0.alloc sp).1) ∉ (releaseLoop s0.ends s0.free sp.start).1 := by
      intro hmem
      exact hrownotends1 (List.mem_map.mpr ⟨_, hmem, rfl⟩)
    refine layInv_step_core hinv hhead ?_ ?_ ?_ ?_ ?_ ?_ ?_ ?_ ?_
    · intro e he
      rw [hends1eq, ← hrow] at he
      rcases mem_insSetPair.mp he with rfl | he
      · exact Or.inl rfl
      · refine Or.inr ⟨?_, hs0ends e (hends1sub e he)⟩
        intro hc
        exact hrownotends1 (hc ▸ List.mem_map.mpr ⟨e, he, rfl⟩)
    · intro r hr
      rw [hfree1] at hr
      exact absurd hr (List.not_mem_nil r)
    · intro r hnf
      rw [hnf1] at hnf
      constructor
      · intro hc
        rw [hc, hrow] at hnf
        omega
      · exact hs0fresh r (by omega)
    · intro a ha hap har
      have : a ∈ trEntries tr pp (s0.alloc sp).1 := mem_trEntries.mpr ⟨ha, hap, har⟩
      rw [hrowfresh] at this
      exact absurd this (List.not_mem_nil a)
    · intro e he
      rw [hends1eq, ← hrow] at he
      rw [hnf1]
      rcases mem_insSetPair.mp he with rfl | he
      · rw [hrow]
        omega
      · have := hs0endsBound e (hends1sub e he)
        omega
    · intro r hr
      rw [hfree1] at hr
      exact absurd hr (List.not_mem_nil r)
    · rw [hends1eq, ← hrow]
      have hperm := (insSetPair_perm hnotinPair).map (·.2)
      refine hperm.nodup_iff.mpr ?_
      simp only [List.map_cons]
      exact List.nodup_cons.mpr ⟨hrownotends1, hnodups.2.1⟩
    · rw [hfree1]
      exact List.Pairwise.nil
    · intro r hr
      rw [hfree1] at hr
      exact absurd hr (List.not_mem_nil r)
  · -- reuse branch
    have hrowmem : (s0.alloc sp).1 ∈ peeled.map (·.2) ∨ (s0.alloc sp).1 ∈ s0.free := by
      have : (s0.alloc sp).1 ∈ (releaseLoop s0.ends s0.free sp.start).2 := by
        rw [hfree1cons]
        exact List.mem_cons_self _ rest
      exact (hfree1mem _).mp this
    have hrowlt : (s0.alloc sp).1 < s0.next_free := hpoolbound _ hrowmem
    have hrowhist := hpoolhist _ hrowmem
    have hchainrow := chain_extend hinv.chain
      (fun en hen => hinv.startsLe en hen sp hspmem) hrowhist
    have hrownotends1 := hpoolnotends1 _ hrowmem
    have hnotinPair : (sp.end_, (s0.alloc sp).1) ∉ (releaseLoop s0.ends s0.free sp.start).1 := by
      intro hmem
      exact hrownotends1 (List.mem_map.mpr ⟨_, hmem, rfl⟩)
    have hrestlt : ∀ r ∈ rest, (s0.alloc sp).1 < r := by
      intro r hr
      have := hfree1sorted
      rw [hfree1cons] at this
      exact List.rel_of_pairwise_cons this hr
    have hrestmem : ∀ r ∈ rest, r ∈ peeled.map (·.2) ∨ r ∈ s0.free := by
      intro r hr
      have : r ∈ (releaseLoop s0.ends s0.free sp.start).2 := by
        rw [hfree1cons]
        exact List.mem_cons_of_mem _ hr
      exact (hfree1mem _).mp this
    refine layInv_step_core hinv hhead ?_ ?_ ?_ hchainrow ?_ ?_ ?_ ?_ ?_
    · intro e he
      rw [hends1eq] at he
      rcases mem_insSetPair.mp he with rfl | he
      · exact Or.inl rfl
      · refine Or.inr ⟨?_, hs0ends e (hends1sub e he)⟩
        intro hc
        exact hrownotends1 (hc ▸ List.mem_map.mpr ⟨e, he, rfl⟩)
    · intro r hr
      rw [hfree1] at hr
      refine ⟨by have := hrestlt r hr; omega, ?_⟩
      obtain ⟨en, hget, hend⟩ := hpoolhist r (hrestmem r hr)
      rcases hrestmem r hr with hrp | hrf
      · exact ⟨en, hget, fun sp2 hsp2 => Nat.lt_of_lt_of_le hend (hhead sp2 hsp2)⟩
      · obtain ⟨en2, hget2, hbd2⟩ := hs0free r hrf
        exact ⟨en2, hget2, fun sp2 hsp2 => hbd2 sp2 (List.mem_cons_of_mem sp hsp2)⟩
    · intro r hnf
      rw [hnf1] at hnf
      exact ⟨by omega, hs0fresh r hnf⟩
    · intro e he
      rw [hends1eq] at he
      rw [hnf1]
      rcases mem_insSetPair.mp he with rfl | he
      · exact hrowlt
      · exact hs0endsBound e (hends1sub e he)
    · intro r hr
      rw [hfree1] at hr
      rw [hnf1]
      exact hpoolbound r (hrestmem r hr)
    · rw [hends1eq]
      have hperm := (insSetPair_perm hnotinPair).map (·.2)
      refine hperm.nodup_iff.mpr ?_
      simp only [List.map_cons]
      exact List.nodup_cons.mpr ⟨hrownotends1, hnodups.2.1⟩
    · rw [hfree1]
      have := hfree1sorted
      rw [hfree1cons] at this
      exact this.of_cons
    · intro r hr hrin
      rw [hfree1] at hr
      rw [hends1eq] at hrin
      rcases mem_map_insSetPair hrin with hc | hrin
      · have := hrestlt r hr
        omega
      · exact hpoolnotends1 r (hrestmem r hr) hrin

/-- The parent path computed by the first loop of `lay_out` for a span. -/
def layPP (σ : LayState) (sp : Span) : Path :=
  match sp.parent_id with
  | some parent => (alGet parent σ.alloc).getD []
  | none => []

/-- The trace entry produced for a span at a given state. -/
def layEntry (σ : LayState) (sp : Span) : TEntry :=
  { span := sp, ppath := layPP σ sp,
    row := (((plGet (layPP σ sp) σ.sweeps).getD Sweep.new).alloc sp).1 }

theorem layStepT_eq (σ : LayState) (tr : List TEntry) (sp : Span) :
    layStepT (σ, tr) sp = (layStep σ sp, tr ++ [layEntry σ sp]) := rfl

theorem layStep_alloc_eq (σ : LayState) (sp : Span) :
    (layStep σ sp).alloc
      = alUpdate sp.id ((layEntry σ sp).ppath ++ [(layEntry σ sp).row]) σ.alloc := rfl

theorem layStep_sweeps_eq (σ : LayState) (sp : Span) :
    (layStep σ sp).sweeps
      = plUpdate (layPP σ sp)
          (((plGet (layPP σ sp) σ.sweeps).getD Sweep.new).alloc sp).2 σ.sweeps := rfl

theorem layRunT_cons (σt : LayState × List TEntry) (sp : Span) (l : List Span) :
    layRunT σt (sp :: l) = layRunT (layStepT σt sp) l := rfl

/-- The frontline loop of `lay_out` preserves the invariant down to an empty
remainder. -/
theorem layRun_inv : ∀ (rem : List Span) (σ : LayState) (tr : List TEntry),
    List.Pairwise spanLe rem → LayInv σ.sweeps tr rem →
    LayInv (layRunT (σ, tr) rem).1.sweeps (layRunT (σ, tr) rem).2 [] := by
  intro rem
  induction rem with
  | nil => intro σ tr _ hinv; exact hinv
  | cons sp rem ih =>
    intro σ tr hsort hinv
    have hhead : ∀ sp2 ∈ rem, sp.start ≤ sp2.start := by
      intro sp2 h2
      exact List.rel_of_pairwise_cons hsort h2
    have hstep := @layInv_step σ.sweeps tr sp rem (layPP σ sp) hhead hinv
    have hstep2 : LayInv (layStep σ sp).sweeps (tr ++ [layEntry σ sp]) rem := by
      rw [layStep_sweeps_eq]
      exact hstep
    have h2 := ih (layStep σ sp) (tr ++ [layEntry σ sp]) hsort.of_cons hstep2
    rw [layRunT_cons, layStepT_eq]
    exact h2

theorem layRunT_fst : ∀ (l : List Span) (σ : LayState) (tr : List TEntry),
    (layRunT (σ, tr) l).1 = l.foldl layStep σ := by
  intro l
  induction l with
  | nil => intro σ tr; rfl
  | cons sp l ih =>
    intro σ tr
    rw [layRunT_cons, layStepT_eq, List.foldl_cons]
    exact ih (layStep σ sp) (tr ++ [layEntry σ sp])

theorem layRunT_trace_spans : ∀ (l : List Span) (σ : LayState) (tr : List TEntry),
    ((layRunT (σ, tr) l).2).map (·.span) = tr.map (·.span) ++ l := by
  intro l
  induction l with
  | nil => intro σ tr; simp [layRunT]
  | cons sp l ih =>
    intro σ tr
    rw [layRunT_cons, layStepT_eq, ih (layStep σ sp) (tr ++ [layEntry σ sp])]
    simp [layEntry]

theorem layRunT_alloc_preserve : ∀ (l : List Span) (σ : LayState) (tr : List TEntry) (k : Nat),
    (∀ sp ∈ l, sp.id ≠ k) → alGet k (layRunT (σ, tr) l).1.alloc = alGet k σ.alloc := by
  intro l
  induction l with
  | nil => intro σ tr k _; rfl
  | cons sp l ih =>
    intro σ tr k hne
    rw [layRunT_cons, layStepT_eq]
    rw [ih (layStep σ sp) (tr ++ [layEntry σ sp]) k
      (fun sp2 h2 => hne sp2 (List.mem_cons_of_mem sp h2))]
    rw [layStep_alloc_eq]
    exact alGet_alUpdate_ne _ _ (fun hc => hne sp (List.mem_cons_self sp l) hc.symm)

theorem layRunT_alloc_lookup : ∀ (l : List Span) (σ : LayState) (tr : List TEntry),
    ((l.map (·.id)).Nodup) →
    ∀ en ∈ (layRunT (σ, tr) l).2, en ∈ tr ∨
      alGet en.span.id (layRunT (σ, tr) l).1.alloc = some (en.ppath ++ [en.row]) := by
  intro l
  induction l with
  | nil => intro σ tr _ en hen; exact Or.inl hen
  | cons sp l ih =>
    intro σ tr hnd en hen
    rw [layRunT_cons, layStepT_eq] at hen
    have hnd2 : (l.map (·.id)).Nodup := by
      simp only [List.map_cons, List.nodup_cons] at hnd
      exact hnd.2
    have hfresh : sp.id ∉ l.map (·.id) := by
      simp only [List.map_cons, List.nodup_cons] at hnd
      exact hnd.1
    rcases ih (layStep σ sp) (tr ++ [layEntry σ sp]) hnd2 en hen with hen2 | hok
    · rcases List.mem_append.mp hen2 with hen3 | hen3
      · exact Or.inl hen3
      · have hen4 : en = layEntry σ sp := by simpa using hen3
        refine Or.inr ?_
        rw [layRunT_cons, layStepT_eq]
        have hpres := layRunT_alloc_preserve l (layStep σ sp) (tr ++ [layEntry σ sp]) sp.id
          (fun sp2 h2 hc => hfresh (hc ▸ List.mem_map.mpr ⟨sp2, h2, rfl⟩))
        have hid : en.span.id = sp.id := by rw [hen4]; rfl
        rw [hid, hpres, layStep_alloc_eq, alGet_alUpdate_self, hen4]
    · refine Or.inr ?_
      rw [layRunT_cons, layStepT_eq]
      exact hok

theorem alGet_mem_values {β : Type} {k : Nat} {v : β} : ∀ {m : List (Nat × β)},
    alGet k m = some v → v ∈ m.map (·.2) := by
  intro m
  induction m with
  | nil => intro h; exact Option.noConfusion h
  | cons p rest ih =>
    intro h
    by_cases h1 : k = p.1
    · rw [alGet, if_pos h1] at h
      obtain rfl := Option.some.inj h
      exact List.mem_map.mpr ⟨p, List.mem_cons_self p rest, rfl⟩
    · rw [alGet, if_neg h1] at h
      exact List.mem_cons_of_mem _ (ih h)

/-! Lexicographic-order facts for path renumbering. -/

theorem pathLtB_irrefl : ∀ p : Path, pathLtB p p = false := by
  intro p
  induction p with
  | nil => rfl
  | cons a p ih => simp [pathLtB, ih]

theorem pathLtB_trans : ∀ {p q r : Path},
    pathLtB p q = true → pathLtB q r = true → pathLtB p r = true := by
  intro p
  induction p with
  | nil =>
    intro q r hpq hqr
    cases q with
    | nil => exact absurd hpq (by simp [pathLtB])
    | cons b qs =>
      cases r with
      | nil => exact absurd hqr (by simp [pathLtB])
      | cons c rs => simp [pathLtB]
  | cons a ps ih =>
    intro q r hpq hqr
    cases q with
    | nil => exact absurd hpq (by simp [pathLtB])
    | cons b qs =>
      cases r with
      | nil => exact absurd hqr (by simp [pathLtB])
      | cons c rs =>
        simp only [pathLtB] at hpq hqr ⊢
        by_cases hab : a < b
        · by_cases hbc : b < c
          · rw [if_pos (Nat.lt_trans hab hbc)]
          · by_cases hcb : c < b
            · simp only [if_neg hbc, if_pos hcb] at hqr
              exact absurd hqr (by simp)
            · have : b = c := by omega
              rw [← this]
              rw [if_pos hab]
        · by_cases hba : b < a
          · simp only [if_neg hab, if_pos hba] at hpq
            exact absurd hpq (by simp)
          · have hab2 : a = b := by omega
            subst hab2
            simp only [if_neg hab, if_neg (by omega : ¬ a < a)] at hpq
            by_cases hac : a < c
            · rw [if_pos hac]
            · by_cases hca : c < a
              · simp only [if_neg hac, if_pos hca] at hqr
                exact absurd hqr (by simp)
              · have : a = c := by omega
                subst this
                simp only [if_neg hac, if_neg (by omega : ¬ a < a)] at hqr ⊢
                exact ih hpq hqr

theorem pathLtB_total : ∀ {p q : Path}, p ≠ q → pathLtB p q = true ∨ pathLtB q p = true := by
  intro p
  induction p with
  | nil =>
    intro q hne
    cases q with
    | nil => exact absurd rfl hne
    | cons b qs => exact Or.inl (by simp [pathLtB])
  | cons a ps ih =>
    intro q hne
    cases q with
    | nil => exact Or.inr (by simp [pathLtB])
    | cons b qs =>
      by_cases hab : a < b
      · exact Or.inl (by simp [pathLtB, hab])
      · by_cases hba : b < a
        · exact Or.inr (by simp [pathLtB, hba])
        · have : a = b := by omega
          subst this
          have hne2 : ps ≠ qs := by
            intro hc
            exact hne (by rw [hc])
          rcases ih hne2 with h | h
          · exact Or.inl (by simp [pathLtB, h, Nat.lt_irrefl])
          · exact Or.inr (by simp [pathLtB, h, Nat.lt_irrefl])

theorem pathLtB_asymm {p q : Path} (h1 : pathLtB p q = true) (h2 : pathLtB q p = true) : False := by
  have := pathLtB_trans h1 h2
  rw [pathLtB_irrefl p] at this
  exact Bool.noConfusion this

theorem mem_insSetPath {x p : Path} : ∀ {l : List Path}, x ∈ insSetPath p l ↔ x = p ∨ x ∈ l := by
  intro l
  induction l with
  | nil => simp [insSetPath]
  | cons q l ih =>
    by_cases h1 : p = q
    · subst h1
      simp [insSetPath, List.mem_cons]
    · by_cases h2 : pathLtB p q
      · simp [insSetPath, h1, h2]
      · simp only [insSetPath, if_neg h1, if_neg h2, List.mem_cons, ih]
        tauto

theorem insSetPath_sorted {p : Path} : ∀ {l : List Path},
    List.Pairwise (fun a b => pathLtB a b = true) l →
    List.Pairwise (fun a b => pathLtB a b = true) (insSetPath p l) := by
  intro l
  induction l with
  | nil => intro _; simp [insSetPath]
  | cons q l ih =>
    intro h
    by_cases h1 : p = q
    · subst h1
      simpa [insSetPath] using h
    · by_cases h2 : pathLtB p q
      · simp only [insSetPath, if_neg h1, if_pos h2]
        refine List.Pairwise.cons ?_ h
        intro x hx
        rcases List.mem_cons.mp hx with rfl | hx
        · exact h2
        · exact pathLtB_trans h2 (List.rel_of_pairwise_cons h hx)
      · simp only [insSetPath, if_neg h1, if_neg h2]
        refine List.Pairwise.cons ?_ (ih h.tail)
        intro x hx
        rcases mem_insSetPath.mp hx with rfl | hx
        · rcases pathLtB_total h1 with h3 | h3
          · exact absurd h3 h2
          · exact h3
        · exact List.rel_of_pairwise_cons h hx

theorem mem_distinctSortedPaths {x : Path} {l : List Path} :
    x ∈ distinctSortedPaths l ↔ x ∈ l := by
  have haux : ∀ (l : List Path) (acc : List Path),
      x ∈ l.foldl (fun a p => insSetPath p a) acc ↔ x ∈ l ∨ x ∈ acc := by
    intro l
    induction l with
    | nil => intro acc; simp
    | cons p l ih =>
      intro acc
      rw [List.foldl_cons, ih]
      simp only [mem_insSetPath, List.mem_cons]
      tauto
  rw [distinctSortedPaths, haux]
  simp

theorem distinctSortedPaths_sorted (l : List Path) :
    List.Pairwise (fun a b => pathLtB a b = true) (distinctSortedPaths l) := by
  have haux : ∀ (l : List Path) (acc : List Path),
      List.Pairwise (fun a b => pathLtB a b = true) acc →
      List.Pairwise (fun a b => pathLtB a b = true)
        (l.foldl (fun a p => insSetPath p a) acc) := by
    intro l
    induction l with
    | nil => intro acc h; exact h
    | cons p l ih =>
      intro acc h
      rw [List.foldl_cons]
      exact ih _ (insSetPath_sorted h)
  exact haux l [] List.Pairwise.nil

theorem distinctSortedPaths_nodup (l : List Path) : (distinctSortedPaths l).Nodup := by
  refine (distinctSortedPaths_sorted l).imp ?_
  intro a b hab
  intro hc
  subst hc
  rw [pathLtB_irrefl] at hab
  exact Bool.noConfusion hab

theorem append_singleton_inj {l1 l2 : Path} {a b : Nat} (h : l1 ++ [a] = l2 ++ [b]) :
    l1 = l2 ∧ a = b := by
  have h2 := congrArg List.reverse h
  simp only [List.reverse_append, List.reverse_cons, List.reverse_nil, List.nil_append,
    List.singleton_append, List.cons.injEq] at h2
  exact ⟨by
    have := congrArg List.reverse h2.2
    simpa using this, h2.1⟩

theorem idxOf_lt_length {p : Path} : ∀ {l : List Path}, p ∈ l → idxOf p l < l.length := by
  intro l
  induction l with
  | nil => intro h; exact absurd h (List.not_mem_nil p)
  | cons q l ih =>
    intro h
    by_cases h1 : p = q
    · simp [idxOf, h1]
    · rw [idxOf, if_neg h1]
      have h2 : p ∈ l := by
        rcases List.mem_cons.mp h with h2 | h2
        · exact absurd h2 h1
        · exact h2
      simpa using ih h2

theorem idxOf_inj {p q : Path} : ∀ {l : List Path}, p ∈ l → q ∈ l →
    idxOf p l = idxOf q l → p = q := by
  intro l
  induction l with
  | nil => intro h; exact absurd h (List.not_mem_nil p)
  | cons x l ih =>
    intro hp hq heq
    by_cases h1 : p = x
    · by_cases h2 : q = x
      · rw [h1, h2]
      · rw [idxOf, if_pos h1, idxOf, if_neg h2] at heq
        exact absurd heq.symm (Nat.succ_ne_zero _)
    · by_cases h2 : q = x
      · rw [idxOf, if_neg h1, idxOf, if_pos h2] at heq
        exact absurd heq (Nat.succ_ne_zero _)
      · rw [idxOf, if_neg h1, idxOf, if_neg h2] at heq
        have hp2 : p ∈ l := by
          rcases List.mem_cons.mp hp with h3 | h3
          · exact absurd h3 h1
          · exact h3
        have hq2 : q ∈ l := by
          rcases List.mem_cons.mp hq with h3 | h3
          · exact absurd h3 h2
          · exact h3
        exact ih hp2 hq2 (Nat.succ.inj heq)

theorem idxOf_getElem : ∀ {l : List Path}, l.Nodup → ∀ (k : Nat) (h : k < l.length),
    idxOf (l.get ⟨k, h⟩) l = k := by
  intro l
  induction l with
  | nil => intro _ k h; simp at h
  | cons x l ih =>
    intro hnd k h
    cases k with
    | zero => simp [idxOf]
    | succ k =>
      have hk : k < l.length := by simpa using h
      have hmem : l.get ⟨k, hk⟩ ∈ l := List.get_mem l k hk
      have hne : l.get ⟨k, hk⟩ ≠ x := by
        intro hc
        exact (List.nodup_cons.mp hnd).1 (hc ▸ hmem)
      have : (x :: l).get ⟨k + 1, h⟩ = l.get ⟨k, hk⟩ := rfl
      rw [this, idxOf, if_neg hne, ih (List.nodup_cons.mp hnd).2 k hk]

/-- Overlap of the half-open intervals [start, end) of two spans. -/
def spanOverlap (a b : Span) : Prop := a.start < b.end_ ∧ b.start < a.end_

instance (a b : Span) : Decidable (spanOverlap a b) :=
  inferInstanceAs (Decidable (_ ∧ _))

/-- The invariant holds initially: no sweeps, empty trace. -/
theorem layInv_init (rem : List Span) : LayInv ([] : List (Path × Sweep)) [] rem := by
  refine ⟨?_, ?_, ?_, ?_, ?_, ?_, ?_, ?_, ?_, ?_, ?_⟩ <;>
    first
      | (intro P s hP; exact Option.noConfusion hP)
      | (intro P hP r; rfl)
      | (intro en hen; exact absurd hen (List.not_mem_nil en))
      | exact List.Pairwise.nil

/-- Keys of an association list after an update are among the old keys plus
the new one. -/
theorem alUpdate_keys_subset {β : Type} {k : Nat} {v : β} : ∀ {m : List (Nat × β)},
    ∀ x ∈ (alUpdate k v m).map (·.1), x = k ∨ x ∈ m.map (·.1) := by
  intro m
  induction m with
  | nil => intro x hx; simp [alUpdate] at hx; exact Or.inl hx
  | cons p rest ih =>
    intro x hx
    by_cases h1 : k = p.1
    · rw [alUpdate, if_pos h1, List.map_cons] at hx
      rcases List.mem_cons.mp hx with h2 | h2
      · exact Or.inl h2
      · exact Or.inr (by rw [List.map_cons]; exact List.mem_cons_of_mem _ h2)
    · rw [alUpdate, if_neg h1, List.map_cons] at hx
      rcases List.mem_cons.mp hx with h2 | h2
      · exact Or.inr (by rw [List.map_cons]; exact List.mem_cons.mpr (Or.inl h2))
      · rcases ih x h2 with h3 | h3
        · exact Or.inl h3
        · exact Or.inr (by rw [List.map_cons]; exact List.mem_cons_of_mem _ h3)

theorem alGet_mem_keys {β : Type} {k : Nat} {v : β} : ∀ {m : List (Nat × β)},
    alGet k m = some v → k ∈ m.map (·.1) := by
  intro m
  induction m with
  | nil => intro h; exact Option.noConfusion h
  | cons p rest ih =>
    intro h
    by_cases h1 : k = p.1
    · exact List.mem_map.mpr ⟨p, List.mem_cons_self p rest, h1.symm⟩
    · rw [alGet, if_neg h1] at h
      exact List.mem_cons_of_mem _ (ih h)

/-- In an association list whose keys are distinct, every value in the value
column is reachable by lookup. -/
theorem alGet_of_mem_values {β : Type} {v : β} : ∀ {m : List (Nat × β)},
    (m.map (·.1)).Nodup → v ∈ m.map (·.2) → ∃ k, alGet k m = some v := by
  intro m
  induction m with
  | nil => intro _ h; simp at h
  | cons p rest ih =>
    intro hnd hv
    rw [List.map_cons] at hnd hv
    have hnd2 := List.nodup_cons.mp hnd
    rcases List.mem_cons.mp hv with h2 | h2
    · exact ⟨p.1, by simp [alGet, h2]⟩
    · obtain ⟨k, hk⟩ := ih hnd2.2 h2
      refine ⟨k, ?_⟩
      have hkne : k ≠ p.1 := by
        intro hc
        have := alGet_mem_keys hk
        rw [hc] at this
        exact hnd2.1 this
      rw [alGet, if_neg hkne]
      exact hk

theorem alUpdate_keys_nodup {β : Type} {k : Nat} {v : β} : ∀ {m : List (Nat × β)},
    (m.map (·.1)).Nodup → ((alUpdate k v m).map (·.1)).Nodup := by
  intro m
  induction m with
  | nil => intro _; simp [alUpdate]
  | cons p rest ih =>
    intro hnd
    rw [List.map_cons] at hnd
    have hnd2 := List.nodup_cons.mp hnd
    by_cases h1 : k = p.1
    · rw [alUpdate, if_pos h1]
      simp only [List.map_cons]
      refine List.nodup_cons.mpr ⟨?_, hnd2.2⟩
      rw [h1]
      exact hnd2.1
    · rw [alUpdate, if_neg h1]
      simp only [List.map_cons]
      refine List.nodup_cons.mpr ⟨?_, ih hnd2.2⟩
      intro hc
      rcases alUpdate_keys_subset p.1 hc with h2 | h2
      · exact h1 h2.symm
      · exact hnd2.1 h2

theorem layRunT_alloc_keys_nodup : ∀ (l : List Span) (σ : LayState) (tr : List TEntry),
    (σ.alloc.map (·.1)).Nodup → (((layRunT (σ, tr) l).1.alloc).map (·.1)).Nodup := by
  intro l
  induction l with
  | nil => intro σ tr h; exact h
  | cons sp l ih =>
    intro σ tr h
    rw [layRunT_cons, layStepT_eq]
    refine ih (layStep σ sp) _ ?_
    rw [layStep_alloc_eq]
    exact alUpdate_keys_nodup h

theorem layRunT_alloc_keys_sub : ∀ (l : List Span) (σ : LayState) (tr : List TEntry),
    ∀ k ∈ ((layRunT (σ, tr) l).1.alloc).map (·.1),
      k ∈ σ.alloc.map (·.1) ∨ k ∈ l.map (·.id) := by
  intro l
  induction l with
  | nil => intro σ tr k hk; exact Or.inl hk
  | cons sp l ih =>
    intro σ tr k hk
    rw [layRunT_cons, layStepT_eq] at hk
    rcases ih (layStep σ sp) (tr ++ [layEntry σ sp]) k hk with h2 | h2
    · rw [layStep_alloc_eq] at h2
      rcases alUpdate_keys_subset k h2 with h3 | h3
      · exact Or.inr (by rw [h3]; exact List.mem_map.mpr ⟨sp, List.mem_cons_self sp l, rfl⟩)
      · exact Or.inl h3
    · exact Or.inr (List.mem_map.mpr (by
        obtain ⟨sp2, hsp2, rfl⟩ := List.mem_map.mp h2
        exact ⟨sp2, List.mem_cons_of_mem sp hsp2, rfl⟩))

end F2


/-! ## Chunk lemmas for the Variant B layout (claim C1). -/

namespace Glv

/-- Well-formedness of a chunk: intervals sorted and separated (each ends
strictly before the next begins, which is what `Chunk::add` asserts and
what keeps its binary searches correct), each with `begin ≤ end`. -/
def chunkWF (c : List Iv) : Prop :=
  List.Pairwise (fun a b => a.end_ < b.begin_) c ∧ ∀ iv ∈ c, iv.begin_ ≤ iv.end_

/-- Closed-interval overlap, as `Chunk::has_overlap` tests it
(`begins[i] <= span.end` against `ends[i] >= span.begin`). -/
def ivOverlap (a b : Iv) : Prop := a.begin_ ≤ b.end_ ∧ b.begin_ ≤ a.end_

instance (a b : Iv) : Decidable (ivOverlap a b) := inferInstanceAs (Decidable (_ ∧ _))

instance (c : List Iv) : Decidable (chunkWF c) := inferInstanceAs (Decidable (_ ∧ _))

theorem chunkWF_no_overlap {c : List Iv} (h : chunkWF c) :
    List.Pairwise (fun a b => ¬ ivOverlap a b) c := by
  refine h.1.imp ?_
  intro a b hab hover
  have := hover.2
  omega

/-- A successful `Chunk::add` of a well-formed interval preserves
well-formedness, and the result holds exactly the old intervals plus the
new one. -/
theorem chunkAdd_wf {c : List Iv} {b e tid : Nat} {c2 : List Iv}
    (hwf : chunkWF c) (hbe : b ≤ e) (h : chunkAdd c b e tid = some c2) :
    chunkWF c2 ∧ ∀ iv ∈ c2, iv ∈ c ∨ iv = { begin_ := b, end_ := e, task := tid } := by
  induction c generalizing c2 with
  | nil =>
    simp [chunkAdd] at h
    subst h
    exact ⟨⟨by simp, by simpa using hbe⟩, by simp⟩
  | cons iv rest ih =>
    by_cases h1 : iv.end_ = b
    · simp [chunkAdd, h1] at h
    · by_cases h2 : iv.end_ < b
      · simp only [chunkAdd, if_neg h1, if_pos h2, Option.map_eq_some'] at h
        obtain ⟨c1, hc1, rfl⟩ := h
        obtain ⟨hwf1, hmem1⟩ := ih ⟨hwf.1.tail, fun x hx => hwf.2 x (List.mem_cons_of_mem iv hx)⟩ hc1
        refine ⟨⟨?_, ?_⟩, ?_⟩
        · refine List.Pairwise.cons ?_ hwf1.1
          intro x hx
          rcases hmem1 x hx with hx2 | rfl
          · exact List.rel_of_pairwise_cons hwf.1 hx2
          · simpa using h2
        · intro x hx
          rcases List.mem_cons.mp hx with rfl | hx
          · exact hwf.2 x (List.mem_cons_self x rest)
          · rcases hmem1 x hx with hx2 | rfl
            · exact hwf.2 x (List.mem_cons_of_mem iv hx2)
            · exact hbe
        · intro x hx
          rcases List.mem_cons.mp hx with rfl | hx
          · exact Or.inl (List.mem_cons_self x rest)
          · rcases hmem1 x hx with hx2 | rfl
            · exact Or.inl (List.mem_cons_of_mem iv hx2)
            · exact Or.inr rfl
      · by_cases h3 : e < iv.begin_
        · simp only [chunkAdd, if_neg h1, if_neg h2, if_pos h3] at h
          obtain rfl := Option.some.inj h
          refine ⟨⟨?_, ?_⟩, ?_⟩
          · refine List.Pairwise.cons ?_ hwf.1
            intro x hx
            rcases List.mem_cons.mp hx with rfl | hx
            · simpa using h3
            · have h4 : iv.end_ < x.begin_ := List.rel_of_pairwise_cons hwf.1 hx
              have h5 : iv.begin_ ≤ iv.end_ := hwf.2 iv (List.mem_cons_self iv rest)
              simp
              omega
          · intro x hx
            rcases List.mem_cons.mp hx with rfl | hx
            · simpa using hbe
            · exact hwf.2 x hx
          · intro x hx
            rcases List.mem_cons.mp hx with rfl | hx
            · exact Or.inr rfl
            · exact Or.inl hx
        · simp [chunkAdd, h1, h2, h3] at h

theorem chunkAddList_wf {spans : List (Nat × Nat)} :
    ∀ {c c2 : List Iv} {tid : Nat}, chunkWF c → (∀ s ∈ spans, s.1 ≤ s.2) →
    chunkAddList c spans tid = some c2 → chunkWF c2 := by
  induction spans with
  | nil =>
    intro c c2 tid hwf _ h
    simp [chunkAddList] at h
    exact h ▸ hwf
  | cons s rest ih =>
    intro c c2 tid hwf hsp h
    simp only [chunkAddList, List.foldl_cons, Option.some_bind] at h
    cases hadd : chunkAdd c s.1 s.2 tid with
    | none =>
      exfalso
      rw [hadd] at h
      have hnone : ∀ (l : List (Nat × Nat)),
          l.foldl (fun acc s2 => acc.bind (fun c1 => chunkAdd c1 s2.1 s2.2 tid))
            (none : Option (List Iv)) = none := by
        intro l
        induction l with
        | nil => rfl
        | cons x xs ih2 => simpa using ih2
      rw [hnone] at h
      exact Option.noConfusion h
    | some c1 =>
      rw [hadd] at h
      have hwf1 := chunkAdd_wf hwf (hsp s (List.mem_cons_self s rest)) hadd
      exact ih hwf1.1 (fun x hx => hsp x (List.mem_cons_of_mem s hx)) (by simpa [chunkAddList] using h)

/-- Well-formedness of a row: all three chunks well-formed. -/
def RowWF (r : Row) : Prop := chunkWF r.fore ∧ chunkWF r.back ∧ chunkWF r.reserve

instance (r : Row) : Decidable (RowWF r) := inferInstanceAs (Decidable (_ ∧ _))

/-- Well-formedness of a task recorded in a row: its extent and each
on-CPU sub-span are proper intervals. -/
def TaskWF (t : GTask) : Prop :=
  t.sbegin ≤ t.send ∧ ∀ s ∈ t.on_cpu.getD [], s.1 ≤ s.2

instance (t : GTask) : Decidable (TaskWF t) := inferInstanceAs (Decidable (_ ∧ _))

/-- A successful `Row::add` preserves the well-formedness of all three
chunks of the row. -/
theorem row_add_wf {row : Row} {task : GTask} {row2 : Row}
    (hwf : RowWF row) (htask : TaskWF task) (h : Row.add row task = some row2) :
    RowWF row2 := by
  obtain ⟨hfore, hback, hres⟩ := hwf
  cases hoc : task.on_cpu with
  | some on_cpu =>
    simp only [Row.add, hoc] at h
    cases hb : chunkAdd row.back task.sbegin task.send task.id with
    | none => rw [hb] at h; exact Option.noConfusion h
    | some back1 =>
      rw [hb] at h
      cases hov : chunkHasOverlap row.fore task.sbegin task.send with
      | true => rw [hov] at h; simp at h
      | false =>
        rw [hov] at h
        simp only [Bool.false_eq_true, if_false] at h
        cases hf : chunkAddList row.fore on_cpu task.id with
        | none => rw [hf] at h; exact Option.noConfusion h
        | some fore1 =>
          rw [hf] at h
          obtain rfl := Option.some.inj h
          refine ⟨?_, ?_, hres⟩
          · exact chunkAddList_wf hfore (by
              intro s hs
              have := htask.2
              rw [hoc] at this
              exact this s hs) hf
          · exact (chunkAdd_wf hback htask.1 hb).1
  | none =>
    simp only [Row.add, hoc] at h
    cases hf : chunkAdd row.fore task.sbegin task.send task.id with
    | none => rw [hf] at h; exact Option.noConfusion h
    | some fore1 =>
      rw [hf] at h
      cases hov : chunkHasOverlap row.back task.sbegin task.send with
      | true => rw [hov] at h; simp at h
      | false =>
        rw [hov] at h
        simp only [Bool.false_eq_true, if_false] at h
        obtain rfl := Option.some.inj h
        exact ⟨(chunkAdd_wf hfore htask.1 hf).1, hback, hres⟩

end Glv

/-! ## Claim C8: the selection query. -/

/-- C8: `State::select(start, end)` yields exactly the still-active spans
whose start timestamp precedes `end`, rendered in-progress and clipped to
`end`, plus the finished spans with `span.start < end` and
`span.end > start`.  (In this embedding `select` is a pure function of the
state, which is the Rust guarantee that `&self` does not mutate: repeated
calls with the same window are literally the same value.) -/
theorem c8_select_characterization (st : F2.State) (a b : Nat) (s : F2.Span) :
    s ∈ st.select a b ↔
      ((∃ p ∈ st.active_spans, p.2.event.ts < b ∧ s = p.2.in_progress b)
        ∨ (s ∈ st.finished_spans ∧ s.start < b ∧ s.end_ > a)) := by
  simp only [F2.State.select, List.mem_append, List.mem_map, List.mem_filter]
  constructor
  · rintro (⟨e, ⟨⟨p, hp, rfl⟩, hlt⟩, rfl⟩ | ⟨hs, hcond⟩)
    · exact Or.inl ⟨p, hp, by simpa using hlt, rfl⟩
    · have := by simpa using hcond
      exact Or.inr ⟨hs, this.1, this.2⟩
  · rintro (⟨p, hp, hlt, rfl⟩ | ⟨hs, h1, h2⟩)
    · exact Or.inl ⟨p.2, ⟨⟨p, hp, rfl⟩, by simpa using hlt⟩, rfl⟩
    · exact Or.inr ⟨hs, by simp [h1, h2]⟩

/-! ## Claim C10: duplicate Start replaces the active span silently. -/

/-- C10: when a Start event arrives for a SpanId that is already active,
`State::add_event` replaces the existing `ActiveSpan` with a fresh one
(empty wakeups, freshly rendered message): no finished span is emitted, no
diagnostic is produced, the key set of the table is unchanged (hence `len`
is unchanged), and other entries are untouched. -/
theorem c10_duplicate_start_replaces (st : F2.State) (ev : F2.TraceEvent) (i : Nat)
    (hstart : (∃ n p ts m, ev = F2.TraceEvent.AsyncStart n i p ts m)
      ∨ (∃ n p ts m, ev = F2.TraceEvent.SyncStart n i p ts m)
      ∨ (∃ n ts, ev = F2.TraceEvent.ThreadStart n i ts))
    (hdup : (F2.alGet i st.active_spans).isSome) :
    (st.add_event ev).2 = []
    ∧ (st.add_event ev).1.finished_spans = st.finished_spans
    ∧ (st.add_event ev).1.active_spans.map (·.1) = st.active_spans.map (·.1)
    ∧ (st.add_event ev).1.len = st.len
    ∧ F2.alGet i (st.add_event ev).1.active_spans
        = some { event := ev, message := F2.startMessage ev, wakeups := [] }
    ∧ ∀ j, j ≠ i → F2.alGet j (st.add_event ev).1.active_spans = F2.alGet j st.active_spans := by
  have hdup1 : ∀ ts : Nat, (F2.alGet i (st.bump_time ts).active_spans).isSome := by
    intro ts
    rw [F2.bump_time_active]
    exact hdup
  rcases hstart with ⟨n, p, ts, m, he⟩ | ⟨n, p, ts, m, he⟩ | ⟨n, ts, he⟩ <;> subst he <;>
    refine ⟨rfl, by simp [F2.State.add_event, F2.bump_time_finished], ?_, ?_, ?_, ?_⟩ <;>
    simp [F2.State.add_event, F2.State.len, F2.bump_time_active, F2.bump_time_finished,
      F2.alGet_alUpdate_self, F2.alUpdate_keys_of_mem _ hdup,
      F2.alUpdate_length_of_mem _ hdup] <;>
    intro j hj <;>
    exact F2.alGet_alUpdate_ne _ _ hj

/-- C10 witness: a duplicate `SyncStart` on an already-active id. -/
theorem c10_witness :
    ((F2.State.new.add_event (F2.TraceEvent.SyncStart "x" 1 0 0 "m")).1.add_event
        (F2.TraceEvent.SyncStart "y" 1 0 3 "k")).2 = []
    ∧ ((F2.State.new.add_event (F2.TraceEvent.SyncStart "x" 1 0 0 "m")).1.add_event
        (F2.TraceEvent.SyncStart "y" 1 0 3 "k")).1.finished_spans
        = (F2.State.new.add_event (F2.TraceEvent.SyncStart "x" 1 0 0 "m")).1.finished_spans
    ∧ ((F2.State.new.add_event (F2.TraceEvent.SyncStart "x" 1 0 0 "m")).1.add_event
        (F2.TraceEvent.SyncStart "y" 1 0 3 "k")).1.active_spans.map (·.1)
        = (F2.State.new.add_event (F2.TraceEvent.SyncStart "x" 1 0 0 "m")).1.active_spans.map (·.1)
    ∧ ((F2.State.new.add_event (F2.TraceEvent.SyncStart "x" 1 0 0 "m")).1.add_event
        (F2.TraceEvent.SyncStart "y" 1 0 3 "k")).1.len
        = (F2.State.new.add_event (F2.TraceEvent.SyncStart "x" 1 0 0 "m")).1.len
    ∧ F2.alGet 1 ((F2.State.new.add_event (F2.TraceEvent.SyncStart "x" 1 0 0 "m")).1.add_event
        (F2.TraceEvent.SyncStart "y" 1 0 3 "k")).1.active_spans
        = some { event := F2.TraceEvent.SyncStart "y" 1 0 3 "k",
                 message := F2.startMessage (F2.TraceEvent.SyncStart "y" 1 0 3 "k"), wakeups := [] }
    ∧ ∀ j, j ≠ 1 →
        F2.alGet j ((F2.State.new.add_event (F2.TraceEvent.SyncStart "x" 1 0 0 "m")).1.add_event
          (F2.TraceEvent.SyncStart "y" 1 0 3 "k")).1.active_spans
        = F2.alGet j (F2.State.new.add_event (F2.TraceEvent.SyncStart "x" 1 0 0 "m")).1.active_spans :=
  c10_duplicate_start_replaces
    (F2.State.new.add_event (F2.TraceEvent.SyncStart "x" 1 0 0 "m")).1
    (F2.TraceEvent.SyncStart "y" 1 0 3 "k") 1
    (Or.inr (Or.inl ⟨"y", 0, 3, "k", rfl⟩)) (by rfl)

/-! ## Claim C3: duplicate SpanId on a Start event in the event tree. -/

namespace Server

/-- Test scaffolding: apply `EventTree::add` and keep the tree on success
(used to build concrete trees in counterexamples and witnesses). -/
def addOk (t : EventTree) (buf : String) (ev : TraceEvent) : EventTree :=
  match t.add buf (Except.ok ev) with
  | AddResult.ok t2 => t2
  | _ => t

/-- A concrete tree with a root (id 0) and one Sync child (id 1). -/
def tree01 : EventTree :=
  addOk (addOk (EventTree.new_hide_wakeups [] [])
      "g" (TraceEvent.ThreadStart "Graydon" 0 0 false))
    "n" (TraceEvent.SyncStart "Niko" 1 0 0 "null")

end Server

/-- C3 counterexample.  The claim says all three Start kinds surface a
structured error on a duplicate SpanId.  Only `ThreadStart` does: for
`AsyncStart`/`SyncStart` the `assert!(!self.slab.contains_key(&id))` in
`EventTree::add` fires first, so the process panics instead of returning
the structured error. -/
theorem c3_counterexample :
    Server.tree01.add "dupS" (Except.ok (Server.TraceEvent.SyncStart "Y" 1 0 0 "null"))
      = Server.AddResult.crash "duplicate node"
    ∧ Server.tree01.add "dupA"
        (Except.ok (Server.TraceEvent.AsyncStart "Z" 1 0 0 "null" false))
      = Server.AddResult.crash "duplicate node" := by
  exact ⟨rfl, rfl⟩

/-- C3 as amended: on a duplicate SpanId, a `ThreadStart` returns the
structured duplicate-node error carrying the offending raw payload, while
`AsyncStart` and `SyncStart` hit the assertion and crash. -/
theorem c3_duplicate_start_outcomes (t : Server.EventTree) (buf name meta : String)
    (id pid ts : Nat) (isr : Bool)
    (hdup : (F2.alGet id t.slab).isSome) :
    t.add buf (Except.ok (Server.TraceEvent.ThreadStart name id ts isr))
      = Server.AddResult.err "duplicate node" buf
    ∧ t.add buf (Except.ok (Server.TraceEvent.AsyncStart name id pid ts meta isr))
      = Server.AddResult.crash "duplicate node"
    ∧ t.add buf (Except.ok (Server.TraceEvent.SyncStart name id pid ts meta))
      = Server.AddResult.crash "duplicate node" := by
  refine ⟨?_, ?_, ?_⟩ <;>
    simp [Server.EventTree.add, Server.EventTree.addStart, Server.EventTree.add_node, hdup]

/-- C3 witness: the amended theorem at the concrete two-node tree. -/
theorem c3_witness :
    Server.tree01.add "dup" (Except.ok (Server.TraceEvent.ThreadStart "X" 1 3 false))
      = Server.AddResult.err "duplicate node" "dup"
    ∧ Server.tree01.add "dup"
        (Except.ok (Server.TraceEvent.AsyncStart "X" 1 0 3 "null" false))
      = Server.AddResult.crash "duplicate node"
    ∧ Server.tree01.add "dup" (Except.ok (Server.TraceEvent.SyncStart "X" 1 0 3 "null"))
      = Server.AddResult.crash "duplicate node" :=
  c3_duplicate_start_outcomes Server.tree01 "dup" "X" "null" 1 0 3 false (by rfl)

/-! ## Claim C9: filter output ordering. -/

/-- C9: the sequence returned by `EventTree::filter` is sorted nondecreasing
by event timestamp, and it is (as a multiset) exactly the collected
sequence — ancestor events, descendant events and eligible wakeups — so the
final sort alone determines the output order and the parent-first walk only
decides inclusion. -/
theorem c9_filter_sorted_by_ts (t : Server.EventTree) (res : List Server.EventResult)
    (h : t.filterCollect = some res) :
    ∃ out, t.filterEvents = some out
      ∧ List.Sorted Server.erLe out
      ∧ out.Perm res
      ∧ t.filter = some (out.map (·.buf)) := by
  refine ⟨List.insertionSort Server.erLe res, ?_, ?_, ?_, ?_⟩
  · simp [Server.EventTree.filterEvents, h]
  · exact List.sorted_insertionSort Server.erLe res
  · exact List.perm_insertionSort Server.erLe res
  · simp [Server.EventTree.filter, Server.EventTree.filterEvents, h]

/-- C9 witness: the concrete two-node tree with out-of-order timestamps. -/
theorem c9_witness :
    ∃ out,
      Server.tree01.filterEvents = some out
      ∧ List.Sorted Server.erLe out
      ∧ out.Perm [{ buf := "g", ts := 0 }, { buf := "n", ts := 0 }]
      ∧ Server.tree01.filter = some (out.map (·.buf)) :=
  c9_filter_sorted_by_ts Server.tree01 [{ buf := "g", ts := 0 }, { buf := "n", ts := 0 }] (by rfl)

/-! ## Claim C7: wakeup inclusion in the filter output. -/

/-- C7: a wakeup's payload appears in the filter output iff both its waking
and parked span ids are in the `seen` set computed by the goal walks and
its waking span is not in the hide set.  The two `buf`-freshness hypotheses
say the wakeup's payload text is not also the payload of a walked node
event or of a different stored wakeup (distinct raw JSON events have
distinct payload strings). -/
theorem c7_wakeup_inclusion_iff (t : Server.EventTree) (seen : List Nat)
    (walkRes : List Server.EventResult) (w : Server.WakeupRec)
    (hwalk : t.filterWalk = some (seen, walkRes))
    (hw : w ∈ t.wakeups)
    (hbuf1 : ∀ e ∈ walkRes, e.buf ≠ w.event.buf)
    (hbuf2 : ∀ w2 ∈ t.wakeups, w2.event.buf = w.event.buf → w2 = w) :
    ∃ out, t.filter = some out
      ∧ (w.event.buf ∈ out ↔
          (w.waking_span ∈ seen ∧ w.parked_span ∈ seen
            ∧ w.waking_span ∉ t.hide_wakeups_from_spans)) := by
  have hcol : t.filterCollect
      = some (walkRes ++ (t.wakeups.filter (Server.eligibleWakeup t seen)).map (·.event)) := by
    simp [Server.EventTree.filterCollect, hwalk]
  refine ⟨(List.insertionSort Server.erLe
      (walkRes ++ (t.wakeups.filter (Server.eligibleWakeup t seen)).map (·.event))).map (·.buf),
    ?_, ?_⟩
  · simp [Server.EventTree.filter, Server.EventTree.filterEvents, hcol]
  · have hperm := List.perm_insertionSort Server.erLe
      (walkRes ++ (t.wakeups.filter (Server.eligibleWakeup t seen)).map (·.event))
    rw [List.mem_map]
    constructor
    · rintro ⟨e, he, hbuf⟩
      have he2 := hperm.mem_iff.mp he
      rcases List.mem_append.mp he2 with h1 | h2
      · exact absurd hbuf (hbuf1 e h1)
      · obtain ⟨w2, hw2, rfl⟩ := List.mem_map.mp h2
        have hw2m := List.mem_filter.mp hw2
        have heq : w2 = w := hbuf2 w2 hw2m.1 hbuf
        rw [heq] at hw2m
        have h3 : (w.waking_span ∈ seen ∧ w.parked_span ∈ seen)
            ∧ w.waking_span ∉ t.hide_wakeups_from_spans := by
          simpa [Server.eligibleWakeup] using hw2m.2
        exact ⟨h3.1.1, h3.1.2, h3.2⟩
    · intro hcond
      refine ⟨w.event, hperm.mem_iff.mpr ?_, rfl⟩
      refine List.mem_append.mpr (Or.inr ?_)
      refine List.mem_map.mpr ⟨w, List.mem_filter.mpr ⟨hw, ?_⟩, rfl⟩
      have h3 : (w.waking_span ∈ seen ∧ w.parked_span ∈ seen)
          ∧ w.waking_span ∉ t.hide_wakeups_from_spans :=
        ⟨⟨hcond.1, hcond.2.1⟩, hcond.2.2⟩
      simpa [Server.eligibleWakeup] using h3

/-- A concrete tree for the C7 witness: root Graydon (0), child Niko (1),
goal Niko, nothing hidden, one stored wakeup 1 → 0 with payload w. -/
def tree01w : Server.EventTree :=
  Server.addOk (Server.addOk (Server.addOk (Server.EventTree.new_hide_wakeups ["Niko"] [])
        "g" (Server.TraceEvent.ThreadStart "Graydon" 0 0 false))
      "n" (Server.TraceEvent.SyncStart "Niko" 1 0 0 "null"))
    "w" (Server.TraceEvent.Wakeup 1 0 5)

/-- C7 witness: the theorem applied at the concrete tree. -/
theorem c7_witness :
    ∃ out, tree01w.filter = some out
      ∧ (({ buf := "w", ts := 5 } : Server.EventResult).buf ∈ out ↔
          (1 ∈ [0, 1] ∧ 0 ∈ [0, 1]
            ∧ 1 ∉ tree01w.hide_wakeups_from_spans)) :=
  c7_wakeup_inclusion_iff tree01w [0, 1]
    [{ buf := "g", ts := 0 }, { buf := "n", ts := 0 }]
    { event := { buf := "w", ts := 5 }, waking_span := 1, parked_span := 0 }
    (by rfl) (by decide) (by decide) (by decide)

/-- Concrete test span builder for counterexamples and witnesses. -/
def testSpan (id : Nat) (parent : Option Nat) (s e : Nat) : F2.Span :=
  { id := id, parent_id := parent, start := s, end_ := e, message := "", wakeups := [],
    style := F2.SpanStyle.SyncFinished }

/-! ## Claim C1: no two spans on one row overlap. -/

/-- C1 counterexample.  The claim quantifies over every input span sequence,
but when two input spans share a SpanId the second allocation overwrites the
first one's path in `allocations`, and `rows[&allocations[&sp.span.id]]`
then sends both spans to the same final row even though their intervals are
identical: the overlap-freedom fails. -/
theorem c1_counterexample :
    ¬ (F2.layOut [testSpan 1 none 0 10, testSpan 1 none 0 10]).spans.Pairwise
        (fun a b => a.row = b.row → ¬ F2.spanOverlap a.span b.span) := by
  decide

/-- C1 as amended, both variants.  Variant A: for input spans with pairwise
distinct ids, no two spans that `lay_out` puts on the same final row have
overlapping [start, end) intervals.  Variant B: a successful `Row::add`
keeps all three chunks of the row well-formed, hence pairwise
non-overlapping (failed adds are the assertion/panic cases). -/
theorem c1_no_overlap_per_row :
    (∀ spans : List F2.Span, ((spans.map (·.id)).Nodup) →
      (F2.layOut spans).spans.Pairwise
        (fun a b => a.row = b.row → ¬ F2.spanOverlap a.span b.span))
    ∧ (∀ (row : Glv.Row) (task : Glv.GTask) (row2 : Glv.Row),
        Glv.RowWF row → Glv.TaskWF task → Glv.Row.add row task = some row2 →
        Glv.RowWF row2
        ∧ List.Pairwise (fun a b => ¬ Glv.ivOverlap a b) row2.fore
        ∧ List.Pairwise (fun a b => ¬ Glv.ivOverlap a b) row2.back
        ∧ List.Pairwise (fun a b => ¬ Glv.ivOverlap a b) row2.reserve) := by
  constructor
  · intro spans hnd
    have hndsorted : ((List.insertionSort F2.spanLe spans).map (·.id)).Nodup :=
      (((List.perm_insertionSort F2.spanLe spans).map (·.id)).nodup_iff).mpr hnd
    have hsorted : List.Pairwise F2.spanLe (List.insertionSort F2.spanLe spans) :=
      List.sorted_insertionSort F2.spanLe spans
    have hfin := F2.layRun_inv (List.insertionSort F2.spanLe spans) ⟨[], []⟩ [] hsorted
      (F2.layInv_init _)
    have hchain := hfin.chain
    have halloc : ∀ en ∈ (F2.layRunT (⟨[], []⟩, []) (List.insertionSort F2.spanLe spans)).2,
        F2.alGet en.span.id
            (F2.layRunT (⟨[], []⟩, []) (List.insertionSort F2.spanLe spans)).1.alloc
          = some (en.ppath ++ [en.row]) := by
      intro en hen
      rcases F2.layRunT_alloc_lookup (List.insertionSort F2.spanLe spans) ⟨[], []⟩ []
          hndsorted en hen with h | h
      · exact absurd h (List.not_mem_nil en)
      · exact h
    have htrsp : ((F2.layRunT (⟨[], []⟩, []) (List.insertionSort F2.spanLe spans)).2).map (·.span)
        = List.insertionSort F2.spanLe spans := by
      simpa using F2.layRunT_trace_spans (List.insertionSort F2.spanLe spans) ⟨[], []⟩ []
    have hloop : F2.layLoop (List.insertionSort F2.spanLe spans)
        = (F2.layRunT (⟨[], []⟩, []) (List.insertionSort F2.spanLe spans)).1 :=
      (F2.layRunT_fst (List.insertionSort F2.spanLe spans) ⟨[], []⟩ []).symm
    have hpair : List.Pairwise
        (fun (a b : F2.TEntry) =>
          F2.idxOf
              ((F2.alGet a.span.id
                  (F2.layLoop (List.insertionSort F2.spanLe spans)).alloc).getD [])
              (F2.distinctSortedPaths
                ((F2.layLoop (List.insertionSort F2.spanLe spans)).alloc.map (·.2)))
            = F2.idxOf
              ((F2.alGet b.span.id
                  (F2.layLoop (List.insertionSort F2.spanLe spans)).alloc).getD [])
              (F2.distinctSortedPaths
                ((F2.layLoop (List.insertionSort F2.spanLe spans)).alloc.map (·.2)))
          → ¬ F2.spanOverlap a.span b.span) (F2.layRunT (⟨[], []⟩, [])
            (List.insertionSort F2.spanLe spans)).2 := by
      refine List.Pairwise.imp_of_mem ?_ hchain
      intro a b ha hb hr hroweq
      have hpa := halloc a ha
      have hpb := halloc b hb
      rw [← hloop] at hpa hpb
      rw [hpa, hpb] at hroweq
      simp only [Option.getD_some] at hroweq
      have hmema : a.ppath ++ [a.row]
          ∈ F2.distinctSortedPaths
            ((F2.layLoop (List.insertionSort F2.spanLe spans)).alloc.map (·.2)) :=
        F2.mem_distinctSortedPaths.mpr (F2.alGet_mem_values hpa)
      have hmemb : b.ppath ++ [b.row]
          ∈ F2.distinctSortedPaths
            ((F2.layLoop (List.insertionSort F2.spanLe spans)).alloc.map (·.2)) :=
        F2.mem_distinctSortedPaths.mpr (F2.alGet_mem_values hpb)
      have heqp : a.ppath ++ [a.row] = b.ppath ++ [b.row] :=
        F2.idxOf_inj hmema hmemb hroweq
      obtain ⟨hpp, hrow⟩ := F2.append_singleton_inj heqp
      have hlt := hr hpp hrow
      intro hover
      obtain ⟨h1, h2⟩ := hover
      omega
    have hpairsp := (@List.pairwise_map F2.TEntry F2.Span (fun e => e.span)
      (fun x y =>
        F2.idxOf ((F2.alGet x.id (F2.layLoop (List.insertionSort F2.spanLe spans)).alloc).getD [])
            (F2.distinctSortedPaths
              ((F2.layLoop (List.insertionSort F2.spanLe spans)).alloc.map (·.2)))
          = F2.idxOf
            ((F2.alGet y.id (F2.layLoop (List.insertionSort F2.spanLe spans)).alloc).getD [])
            (F2.distinctSortedPaths
              ((F2.layLoop (List.insertionSort F2.spanLe spans)).alloc.map (·.2)))
        → ¬ F2.spanOverlap x y)
      (F2.layRunT (⟨[], []⟩, []) (List.insertionSort F2.spanLe spans)).2).mpr hpair
    rw [htrsp] at hpairsp
    exact (@List.pairwise_map F2.Span F2.LaidSpan _
      (fun la lb => la.row = lb.row → ¬ F2.spanOverlap la.span lb.span)
      (List.insertionSort F2.spanLe spans)).mpr hpairsp
  · intro row task row2 hwf htask hadd
    have h2 := Glv.row_add_wf hwf htask hadd
    exact ⟨h2, Glv.chunkWF_no_overlap h2.1, Glv.chunkWF_no_overlap h2.2.1,
      Glv.chunkWF_no_overlap h2.2.2⟩

/-- C1 witness: Variant A at two distinct-id overlapping spans (laid on rows
0 and 1) and Variant B at a first add into an empty row. -/
theorem c1_witness :
    ((F2.layOut [testSpan 1 none 0 10, testSpan 2 none 0 10]).spans.Pairwise
        (fun a b => a.row = b.row → ¬ F2.spanOverlap a.span b.span))
    ∧ (Glv.RowWF { fore := [{ begin_ := 2, end_ := 5, task := 1 }], back := [], reserve := [] }
      ∧ List.Pairwise (fun a b => ¬ Glv.ivOverlap a b) [{ begin_ := 2, end_ := 5, task := 1 }]
      ∧ List.Pairwise (fun a b => ¬ Glv.ivOverlap a b) ([] : List Glv.Iv)
      ∧ List.Pairwise (fun a b => ¬ Glv.ivOverlap a b) ([] : List Glv.Iv)) := by
  constructor
  · exact c1_no_overlap_per_row.1 [testSpan 1 none 0 10, testSpan 2 none 0 10] (by decide)
  · exact c1_no_overlap_per_row.2 { fore := [], back := [], reserve := [] }
      { id := 1, parent := none, sbegin := 2, send := 5, on_cpu := none }
      { fore := [{ begin_ := 2, end_ := 5, task := 1 }], back := [], reserve := [] }
      (by decide)
      (by decide)
      (by rfl)

/-! ## Claim C6: dense renumbering of rows. -/

/-- C6 counterexample.  The claim says rows are renumbered densely by
first-appearance order of the distinct paths, with `total_rows` the number
of distinct paths observed.  (a) For four spans with ids 1..4, the distinct
paths appear in the order [0], [1], [1,0], [0,0], so first-appearance
renumbering would give span 4 (path [0,0]) the row 3; the code renumbers in
ascending lexicographic `BTreeMap` key order and gives it row 1.  (b) With
a duplicated id, two distinct paths are observed but `total_rows` is 1,
because `allocations` is keyed by id and the overwrite hides one path. -/
theorem c6_counterexample :
    ((F2.layOut [testSpan 1 none 0 100, testSpan 2 none 1 100,
        testSpan 3 (some 2) 2 50, testSpan 4 (some 1) 3 50]).spans.map
      (fun l => (l.span.id, l.row)) = [(1, 0), (2, 2), (3, 3), (4, 1)])
    ∧ F2.firstDedup (((F2.layRunT ((⟨[], []⟩ : F2.LayState), [])
          (List.insertionSort F2.spanLe [testSpan 1 none 0 100, testSpan 2 none 1 100,
            testSpan 3 (some 2) 2 50, testSpan 4 (some 1) 3 50])).2).map
        (fun e => e.ppath ++ [e.row])) = [[0], [1], [1, 0], [0, 0]]
    ∧ (F2.layOut [testSpan 1 none 0 10, testSpan 1 none 0 10]).total_rows = 1
    ∧ (F2.firstDedup (((F2.layRunT ((⟨[], []⟩ : F2.LayState), [])
          (List.insertionSort F2.spanLe [testSpan 1 none 0 10, testSpan 1 none 0 10])).2).map
        (fun e => e.ppath ++ [e.row]))).length = 2 := by
  exact ⟨by decide, by decide, by decide, by decide⟩

/-- C6 as amended: for inputs with pairwise-distinct span ids, `lay_out`
renumbers the distinct paths densely (contiguously from 0) in ascending
lexicographic path order — not first-appearance order — and `total_rows` is
the number of distinct paths: every span's row is the rank of its allocated
path in the sorted distinct-path list, every path in that list is some
span's path, rows are all below `total_rows`, and every row below
`total_rows` is used. -/
theorem c6_renumbering (spans : List F2.Span) (hnd : (spans.map (·.id)).Nodup) :
    (F2.layOut spans).total_rows
      = (F2.distinctSortedPaths
          ((F2.layLoop (List.insertionSort F2.spanLe spans)).alloc.map (·.2))).length
    ∧ List.Pairwise (fun p q => F2.pathLtB p q = true)
        (F2.distinctSortedPaths
          ((F2.layLoop (List.insertionSort F2.spanLe spans)).alloc.map (·.2)))
    ∧ (∀ L ∈ (F2.layOut spans).spans, ∃ p,
        F2.alGet L.span.id (F2.layLoop (List.insertionSort F2.spanLe spans)).alloc = some p
        ∧ p ∈ F2.distinctSortedPaths
            ((F2.layLoop (List.insertionSort F2.spanLe spans)).alloc.map (·.2))
        ∧ L.row = F2.idxOf p (F2.distinctSortedPaths
            ((F2.layLoop (List.insertionSort F2.spanLe spans)).alloc.map (·.2))))
    ∧ (∀ p ∈ F2.distinctSortedPaths
          ((F2.layLoop (List.insertionSort F2.spanLe spans)).alloc.map (·.2)),
        ∃ L ∈ (F2.layOut spans).spans,
          F2.alGet L.span.id (F2.layLoop (List.insertionSort F2.spanLe spans)).alloc = some p)
    ∧ (∀ L ∈ (F2.layOut spans).spans, L.row < (F2.layOut spans).total_rows)
    ∧ (∀ k, k < (F2.layOut spans).total_rows →
        ∃ L ∈ (F2.layOut spans).spans, L.row = k) := by
  have hndsorted : ((List.insertionSort F2.spanLe spans).map (·.id)).Nodup :=
    (((List.perm_insertionSort F2.spanLe spans).map (·.id)).nodup_iff).mpr hnd
  have halloc : ∀ en ∈ (F2.layRunT (⟨[], []⟩, []) (List.insertionSort F2.spanLe spans)).2,
      F2.alGet en.span.id
          (F2.layRunT (⟨[], []⟩, []) (List.insertionSort F2.spanLe spans)).1.alloc
        = some (en.ppath ++ [en.row]) := by
    intro en hen
    rcases F2.layRunT_alloc_lookup (List.insertionSort F2.spanLe spans) ⟨[], []⟩ []
        hndsorted en hen with h | h
    · exact absurd h (List.not_mem_nil en)
    · exact h
  have htrsp : ((F2.layRunT (⟨[], []⟩, []) (List.insertionSort F2.spanLe spans)).2).map (·.span)
      = List.insertionSort F2.spanLe spans := by
    simpa using F2.layRunT_trace_spans (List.insertionSort F2.spanLe spans) ⟨[], []⟩ []
  have hloop : F2.layLoop (List.insertionSort F2.spanLe spans)
      = (F2.layRunT (⟨[], []⟩, []) (List.insertionSort F2.spanLe spans)).1 :=
    (F2.layRunT_fst (List.insertionSort F2.spanLe spans) ⟨[], []⟩ []).symm
  have hkeys : (((F2.layLoop (List.insertionSort F2.spanLe spans)).alloc).map (·.1)).Nodup := by
    rw [hloop]
    exact F2.layRunT_alloc_keys_nodup (List.insertionSort F2.spanLe spans) ⟨[], []⟩ []
      (by simp)
  have hspans : (F2.layOut spans).spans
      = (List.insertionSort F2.spanLe spans).map (fun sp =>
          { span := sp,
            row := F2.idxOf
              ((F2.alGet sp.id
                  (F2.layLoop (List.insertionSort F2.spanLe spans)).alloc).getD [])
              (F2.distinctSortedPaths
                ((F2.layLoop (List.insertionSort F2.spanLe spans)).alloc.map (·.2))) }) := rfl
  -- every laid span carries its allocated path as its row rank
  have hmain3 : ∀ L ∈ (F2.layOut spans).spans, ∃ p,
      F2.alGet L.span.id (F2.layLoop (List.insertionSort F2.spanLe spans)).alloc = some p
      ∧ p ∈ F2.distinctSortedPaths
          ((F2.layLoop (List.insertionSort F2.spanLe spans)).alloc.map (·.2))
      ∧ L.row = F2.idxOf p (F2.distinctSortedPaths
          ((F2.layLoop (List.insertionSort F2.spanLe spans)).alloc.map (·.2))) := by
    intro L hL
    rw [hspans] at hL
    obtain ⟨sp, hsp, rfl⟩ := List.mem_map.mp hL
    rw [← htrsp] at hsp
    obtain ⟨en, hen, rfl⟩ := List.mem_map.mp hsp
    have hpa := halloc en hen
    rw [← hloop] at hpa
    refine ⟨en.ppath ++ [en.row], hpa,
      F2.mem_distinctSortedPaths.mpr (F2.alGet_mem_values hpa), ?_⟩
    simp only [hpa, Option.getD_some]
  -- every distinct path is reachable from some laid span
  have hmain4 : ∀ p ∈ F2.distinctSortedPaths
        ((F2.layLoop (List.insertionSort F2.spanLe spans)).alloc.map (·.2)),
      ∃ L ∈ (F2.layOut spans).spans,
        F2.alGet L.span.id (F2.layLoop (List.insertionSort F2.spanLe spans)).alloc = some p
        ∧ L.row = F2.idxOf p (F2.distinctSortedPaths
            ((F2.layLoop (List.insertionSort F2.spanLe spans)).alloc.map (·.2))) := by
    intro p hp
    have hpv := F2.mem_distinctSortedPaths.mp hp
    obtain ⟨k, hk⟩ := F2.alGet_of_mem_values hkeys hpv
    have hkmem := F2.alGet_mem_keys hk
    rw [hloop] at hkmem
    rcases F2.layRunT_alloc_keys_sub (List.insertionSort F2.spanLe spans) ⟨[], []⟩ [] k hkmem
        with h | h
    · simp at h
    · obtain ⟨sp, hsp, rfl⟩ := List.mem_map.mp h
      refine ⟨⟨sp, F2.idxOf
          ((F2.alGet sp.id (F2.layLoop (List.insertionSort F2.spanLe spans)).alloc).getD [])
          (F2.distinctSortedPaths
            ((F2.layLoop (List.insertionSort F2.spanLe spans)).alloc.map (·.2)))⟩, ?_, hk, ?_⟩
      · rw [hspans]
        exact List.mem_map.mpr ⟨sp, hsp, rfl⟩
      · simp only [hk, Option.getD_some]
  refine ⟨rfl, F2.distinctSortedPaths_sorted _, hmain3, ?_, ?_, ?_⟩
  · intro p hp
    obtain ⟨L, hL, hget, _⟩ := hmain4 p hp
    exact ⟨L, hL, hget⟩
  · intro L hL
    obtain ⟨p, _, hp, hrow⟩ := hmain3 L hL
    rw [hrow]
    exact F2.idxOf_lt_length hp
  · intro k hk
    have hk2 : k < (F2.distinctSortedPaths
        ((F2.layLoop (List.insertionSort F2.spanLe spans)).alloc.map (·.2))).length := hk
    have hmem := List.get_mem (F2.distinctSortedPaths
        ((F2.layLoop (List.insertionSort F2.spanLe spans)).alloc.map (·.2))) k hk2
    obtain ⟨L, hL, _, hrow⟩ := hmain4 _ hmem
    refine ⟨L, hL, ?_⟩
    rw [hrow]
    exact F2.idxOf_getElem (F2.distinctSortedPaths_nodup _) k hk2

/-- C6 witness: the amended renumbering at a single concrete span. -/
theorem c6_witness :
    (F2.layOut [testSpan 1 none 0 10]).total_rows
      = (F2.distinctSortedPaths
          ((F2.layLoop (List.insertionSort F2.spanLe [testSpan 1 none 0 10])).alloc.map (·.2))).length
    ∧ List.Pairwise (fun p q => F2.pathLtB p q = true)
        (F2.distinctSortedPaths
          ((F2.layLoop (List.insertionSort F2.spanLe [testSpan 1 none 0 10])).alloc.map (·.2)))
    ∧ (∀ L ∈ (F2.layOut [testSpan 1 none 0 10]).spans, ∃ p,
        F2.alGet L.span.id
            (F2.layLoop (List.insertionSort F2.spanLe [testSpan 1 none 0 10])).alloc = some p
        ∧ p ∈ F2.distinctSortedPaths
            ((F2.layLoop (List.insertionSort F2.spanLe [testSpan 1 none 0 10])).alloc.map (·.2))
        ∧ L.row = F2.idxOf p (F2.distinctSortedPaths
            ((F2.layLoop (List.insertionSort F2.spanLe [testSpan 1 none 0 10])).alloc.map (·.2))))
    ∧ (∀ p ∈ F2.distinctSortedPaths
          ((F2.layLoop (List.insertionSort F2.spanLe [testSpan 1 none 0 10])).alloc.map (·.2)),
        ∃ L ∈ (F2.layOut [testSpan 1 none 0 10]).spans,
          F2.alGet L.span.id
            (F2.layLoop (List.insertionSort F2.spanLe [testSpan 1 none 0 10])).alloc = some p)
    ∧ (∀ L ∈ (F2.layOut [testSpan 1 none 0 10]).spans,
        L.row < (F2.layOut [testSpan 1 none 0 10]).total_rows)
    ∧ (∀ k, k < (F2.layOut [testSpan 1 none 0 10]).total_rows →
        ∃ L ∈ (F2.layOut [testSpan 1 none 0 10]).spans, L.row = k) :=
  c6_renumbering [testSpan 1 none 0 10] (by decide)
